import Mathlib

/-!
Shallow embedding of `src/skills/confluence-upload/confluence_upload.py`.

The program is a one-shot batch uploader: it walks a local directory tree and
mirrors it as a Confluence page tree (create/find/delete by title), keeping
run counters {created, skipped, failed, deleted}.  The embedding models the
remote space as an explicit list of pages, network success/failure as an
environment oracle, and records an event trace (create attempts, HTTP posts,
HTTP deletes, directory visits) so that counting claims can be stated.
-/

namespace ConfluenceUpload

/-- Python truthiness of an optional string: `None` and `""` are falsy. -/
def truthy : Option String → Bool
  | none => false
  | some s => s ≠ ""

/-! Character-list string helpers.  The embedding uses these, rather than
the library's `String` operations built on byte positions, so that every
concrete run reduces inside the kernel; each mirrors the corresponding
Python string operation. -/

/-- Does the second list occur at the head of the first? -/
def listStarts : List Char → List Char → Bool
  | _, [] => true
  | [], _ :: _ => false
  | c :: cs, p :: ps => c == p && listStarts cs ps

/-- Python `s.startswith(pat)`. -/
def strStarts (s pat : String) : Bool := listStarts s.data pat.data

/-- Python `s.endswith(pat)`. -/
def strEnds (s pat : String) : Bool :=
  listStarts s.data.reverse pat.data.reverse

/-- Code-point lexicographic order on character lists, as Python compares
strings. -/
def listLt : List Char → List Char → Bool
  | [], [] => false
  | [], _ :: _ => true
  | _ :: _, [] => false
  | a :: as, b :: bs => a < b || (a == b && listLt as bs)

/-- Python `a <= b` on strings. -/
def strLe (a b : String) : Bool := !(listLt b.data a.data)

/-- The whitespace characters Python's `strip()` removes. -/
def isWs (c : Char) : Bool :=
  c == ' ' || c == '\t' || c == '\n' || c == '\r'

/-- Python `not s.strip()`: the string strips to nothing. -/
def strBlank (s : String) : Bool := s.data.all isWs

/-- Split on newline characters, as Python `s.split("\n")` does
(the empty string yields one empty line). -/
def splitLines (s : String) : List String :=
  go s.data []
where
  go : List Char → List Char → List String
    | [], acc => [String.mk acc.reverse]
    | c :: cs, acc =>
      if c == '\n' then String.mk acc.reverse :: go cs []
      else go cs (c :: acc)

/-- Python `str.title()` restricted to ASCII: a letter that follows a
non-letter is uppercased, a letter that follows a letter is lowercased. -/
def pyTitle (s : String) : String :=
  String.mk (go s.data false)
where
  go : List Char → Bool → List Char
    | [], _ => []
    | c :: cs, prevCased =>
      if c.isAlpha then
        (if prevCased then c.toLower else c.toUpper) :: go cs true
      else
        c :: go cs false

/-- Position of the last `.` in a string, if any. -/
def lastDotPos (s : String) : Option Nat :=
  go s.data 0 none
where
  go : List Char → Nat → Option Nat → Option Nat
    | [], _, acc => acc
    | c :: cs, i, acc => go cs (i + 1) (if c = '.' then some i else acc)

/-- Python `pathlib.PurePath.stem`: the file name with its last suffix
removed; a name whose only dot is leading (or trailing) keeps it. -/
def pathStem (name : String) : String :=
  match lastDotPos name with
  | none => name
  | some i =>
    if 0 < i ∧ i + 1 < name.length then String.mk (name.data.take i) else name

/-- `pretty_title` from the source: underscores and hyphens are replaced by
spaces (the two single-character `replace` calls amount to a character
map), then Python title-casing. -/
def pretty_title (filename_stem : String) : String :=
  pyTitle (String.mk (filename_stem.data.map
    (fun c => if c == '_' || c == '-' then ' ' else c)))

/-- Substring test: `sub` occurs somewhere in `s`. -/
def containsSub (s sub : String) : Bool :=
  go s.data
where
  go : List Char → Bool
    | [] => listStarts [] sub.data
    | c :: cs => listStarts (c :: cs) sub.data || go cs

/-! ## Local filesystem model -/

/-- A directory entry: a file with text content, or a subdirectory. -/
inductive Entry where
  | file (name content : String)
  | dir (name : String) (entries : List Entry)

/-- Name of an entry. -/
def ename : Entry → String
  | .file n _ => n
  | .dir n _ => n

mutual
/-- Size measure used for termination of the directory walker. -/
def entrySize : Entry → Nat
  | .file _ _ => 1
  | .dir _ es => 1 + entsSize es

/-- Total size of a list of entries. -/
def entsSize : List Entry → Nat
  | [] => 0
  | e :: es => entrySize e + entsSize es
end

/-- Insert an entry into a name-sorted list (insertion step of the sort
mirroring Python's `sorted` on names). -/
def insertE (x : Entry) : List Entry → List Entry
  | [] => [x]
  | y :: ys => if strLe (ename x) (ename y) then x :: y :: ys else y :: insertE x ys

/-- Sort entries by name ascending, as `sorted(os.listdir(...))` does. -/
def sortEntries : List Entry → List Entry
  | [] => []
  | x :: xs => insertE x (sortEntries xs)

/-- The walker's file filter: `e.endswith(".md") and (dir/e).is_file()`. -/
def isMdFile : Entry → Bool
  | .file n _ => strEnds n ".md"
  | .dir _ _ => false

/-- The walker's directory filter: `(dir/e).is_dir() and not e.startswith(".")`. -/
def isIncludedDir : Entry → Bool
  | .file _ _ => false
  | .dir n _ => !(strStarts n ".")

/-- Number of matching markdown documents directly in a directory listing. -/
def mdCount (es : List Entry) : Nat := (es.filter isMdFile).length

/-! ## Markdown conversion

`md_to_storage` delegates the actual rendering to the third-party `markdown`
library, which is not part of this repository. -/

/-- Modelled from the spec: the body of the third-party `markdown.markdown`
renderer (with tables / fenced_code / toc extensions) is not in the
repository.  Per the spec the converter maps markdown-like text (headings,
tables, fenced code, paragraphs) to a structured markup string; whitespace-only
input renders to an empty string.  This is a simple line-based model of that
behaviour. -/
def mdRender (md : String) : String :=
  go (splitLines md) false
where
  go : List String → Bool → String
    | [], false => ""
    | [], true => "</code></pre>"
    | l :: rest, inCode =>
      if strStarts l "```" then
        (if inCode then "</code></pre>" else "<pre><code>") ++ go rest (!inCode)
      else if inCode then
        l ++ "\n" ++ go rest true
      else if strStarts l "# " then
        "<h1>" ++ String.mk (l.data.drop 2) ++ "</h1>" ++ go rest false
      else if strStarts l "## " then
        "<h2>" ++ String.mk (l.data.drop 3) ++ "</h2>" ++ go rest false
      else if strStarts l "|" then
        "<table><tr><td>" ++ String.mk (l.data.drop 1) ++ "</td></tr></table>"
          ++ go rest false
      else if strBlank l then
        go rest false
      else
        "<p>" ++ l ++ "</p>" ++ go rest false

/-- `md_to_storage` from the source: render, and fall back to a placeholder
paragraph when the rendered text strips to nothing
(`html if html.strip() else ...`). -/
def md_to_storage (md_content : String) : String :=
  let html := mdRender md_content
  if !(strBlank html) then html else "<p><em>Empty document</em></p>"

/-! ## Remote state, counters, events -/

/-- The run counters held by `ConfluenceClient.stats`. -/
structure Stats where
  created : Nat
  skipped : Nat
  failed : Nat
  deleted : Nat
deriving DecidableEq

/-- A page stored by the remote service. -/
structure RPage where
  id : String
  title : String
  parentId : String
  body : String
deriving DecidableEq

/-- The remote space: its pages plus a counter used to mint fresh page ids
for successful create requests. -/
structure Remote where
  pages : List RPage
  next : Nat
deriving DecidableEq

/-- Which call site performed a create attempt. -/
inductive PageKind where
  | root | leaf | index
deriving DecidableEq

/-- Observable events of a run: every `create_page` call records an
`attempt`; an actually issued HTTP POST records a `post`; an issued HTTP
DELETE records a `del`; entering a directory in the walker records a
`visit` carrying that directory's listing. -/
inductive Ev where
  | attempt (k : PageKind) (title : String)
  | post (title : String)
  | del (id : String)
  | visit (es : List Entry)

/-- Client-side run state: the remote space as the service now holds it,
the client's counters, and the event log. -/
structure St where
  remote : Remote
  stats : Stats
  log : List Ev

/-- Environment of a run: the dry-run flag, the credential environment
variables, and oracles deciding which create/delete HTTP requests the
service accepts. -/
structure Env where
  dryRun : Bool
  email : String
  token : String
  createOk : String → Bool
  deleteOk : String → Bool

/-- `find_page`: query by title in the space; the client returns the id of
the first exact title match, or `None`. -/
def find_page (r : Remote) (title : String) : Option String :=
  (r.pages.find? (fun p => p.title == title)).map (fun p => p.id)

/-- The remote space has a page with this title. -/
def hasT (r : Remote) (t : String) : Bool :=
  r.pages.any (fun p => p.title == t)

/-- Well-formed remote state: no page has an empty id (true of every real
Confluence space; created pages keep it an invariant). -/
def WFRemote (r : Remote) : Prop :=
  ∀ p ∈ r.pages, p.id ≠ ""

/-- `create_page`: skip if the title already exists, otherwise in dry-run
mode pretend; otherwise issue the POST, which the environment accepts or
rejects. Exactly one counter is bumped. -/
def create_page (env : Env) (k : PageKind) (st : St)
    (title body_html parent_id : String) : St × Option String :=
  let st := { st with log := st.log ++ [Ev.attempt k title] }
  let existing := find_page st.remote title
  if truthy existing then
    ({ st with stats := { st.stats with skipped := st.stats.skipped + 1 } }, existing)
  else if env.dryRun then
    ({ st with stats := { st.stats with created := st.stats.created + 1 } },
      some "dry-run-id")
  else
    let st := { st with log := st.log ++ [Ev.post title] }
    if env.createOk title then
      let pid := "id" ++ toString st.remote.next
      ({ remote := ⟨st.remote.pages ++ [⟨pid, title, parent_id, body_html⟩],
                    st.remote.next + 1⟩,
         stats := { st.stats with created := st.stats.created + 1 },
         log := st.log }, some pid)
    else
      ({ st with stats := { st.stats with failed := st.stats.failed + 1 } }, none)

/-- Ids of a page and all its descendants, by repeated parent-chasing
(the remote service deletes a page tree as a unit). -/
def descendIds (pages : List RPage) : Nat → List String → List String
  | 0, acc => acc
  | n + 1, acc =>
    let more := (pages.filter
      (fun p => acc.contains p.parentId && !acc.contains p.id)).map (fun p => p.id)
    match more with
    | [] => acc
    | _ => descendIds pages n (acc ++ more)

/-- Remove a page and its descendants from the remote space. -/
def removeTree (r : Remote) (pid : String) : Remote :=
  let doomed := descendIds r.pages r.pages.length [pid]
  ⟨r.pages.filter (fun p => !doomed.contains p.id), r.next⟩

/-- `delete_page`: look up by title; absent is reported non-fatally; in
dry-run mode pretend; otherwise issue the DELETE, which the environment
accepts or rejects. Only a successful delete bumps a counter. -/
def delete_page (env : Env) (st : St) (title : String) : St × Bool :=
  let pageId := find_page st.remote title
  if truthy pageId then
    let pid := pageId.getD ""
    if env.dryRun then (st, true)
    else
      let st := { st with log := st.log ++ [Ev.del pid] }
      if env.deleteOk pid then
        ({ st with remote := removeTree st.remote pid,
                   stats := { st.stats with deleted := st.stats.deleted + 1 } }, true)
      else (st, false)
  else (st, false)

/-- The final statistics tally printed by `print_stats`: created, skipped
and failed always, deleted only when nonzero. -/
def statsReport (s : Stats) : List (String × Nat) :=
  [("created", s.created), ("skipped", s.skipped), ("failed", s.failed)]
    ++ (if s.deleted ≠ 0 then [("deleted", s.deleted)] else [])

/-! ## Size lemmas (termination of the walker) -/

theorem entrySize_pos (e : Entry) : 1 ≤ entrySize e := by
  cases e <;> simp [entrySize]

theorem entsSize_cons (e : Entry) (es : List Entry) :
    entsSize (e :: es) = entrySize e + entsSize es := rfl

theorem entsSize_insertE (x : Entry) (l : List Entry) :
    entsSize (insertE x l) = entrySize x + entsSize l := by
  induction l with
  | nil => rfl
  | cons y ys ih =>
    simp only [insertE]
    split
    · rfl
    · simp only [entsSize_cons, ih]; omega

theorem entsSize_sortEntries (l : List Entry) :
    entsSize (sortEntries l) = entsSize l := by
  induction l with
  | nil => rfl
  | cons x xs ih => simp only [sortEntries, entsSize_insertE, ih, entsSize_cons]

theorem entsSize_filter_le (p : Entry → Bool) (l : List Entry) :
    entsSize (l.filter p) ≤ entsSize l := by
  induction l with
  | nil => simp
  | cons x xs ih =>
    simp only [List.filter_cons]
    split
    · simp only [entsSize_cons]; omega
    · have := entrySize_pos x
      simp only [entsSize_cons]; omega

/-! ## The directory walker and the entry point -/

/-- The file-upload loop of `upload_directory` (and of `main` for top-level
files): each markdown file becomes a leaf page under the current parent. -/
def upload_files (env : Env) (st : St) (fs : List Entry)
    (parent_id pfx : String) : St :=
  match fs with
  | [] => st
  | .file n c :: rest =>
    let readable := pretty_title (pathStem n)
    let title := pfx ++ " - " ++ readable
    let body := md_to_storage c
    let st := (create_page env .leaf st title body parent_id).1
    upload_files env st rest parent_id pfx
  | .dir _ _ :: rest => upload_files env st rest parent_id pfx

mutual
/-- Fuel-indexed body of `upload_directory` (structural recursion on the
fuel, so that concrete runs evaluate inside the kernel; the wrappers below
supply fuel equal to the call-depth bound `3 * entsSize es + 2`, which the
fuel lemmas show is always enough): record the visit, upload the markdown
files as leaf pages, then process the subdirectories. -/
def upload_directoryF : Nat → Env → St → List Entry → String → String → St
  | 0, _, st, _, _, _ => st
  | fuel + 1, env, st, es, parent_id, pfx =>
    let st := { st with log := st.log ++ [Ev.visit es] }
    let sortedE := sortEntries es
    let dirs := sortedE.filter isIncludedDir
    let files := sortedE.filter isMdFile
    let st := upload_files env st files parent_id pfx
    upload_subdirsF fuel env st dirs parent_id pfx

/-- Fuel-indexed subdirectory loop of `upload_directory`. -/
def upload_subdirsF : Nat → Env → St → List Entry → String → String → St
  | 0, _, st, _, _, _ => st
  | fuel + 1, env, st, ds, parent_id, pfx =>
    match ds with
    | [] => st
    | d :: rest =>
      upload_subdirsF fuel env (upload_subdirF fuel env st d parent_id pfx)
        rest parent_id pfx

/-- Fuel-indexed single iteration of the subdirectory loop: create the
index page and, only if that returned a truthy id, recurse into the
subdirectory. -/
def upload_subdirF : Nat → Env → St → Entry → String → String → St
  | 0, _, st, _, _, _ => st
  | fuel + 1, env, st, d, parent_id, pfx =>
    match d with
    | .file _ _ => st
    | .dir name es =>
      let sub_prefix := pfx ++ " / " ++ name
      let body := "<p>Index page for <strong>" ++ name ++ "</strong>.</p>"
      let res := create_page env .index st sub_prefix body parent_id
      if truthy res.2 then
        upload_directoryF fuel env res.1 es (res.2.getD "") sub_prefix
      else res.1
end

/-- Two sufficient fuels compute the same walk (so the particular fuel the
wrappers pick is irrelevant). -/
theorem walkF_fuelIrrel (n : Nat) :
    (∀ f env st d p pfx, 3 * entrySize d ≤ n → 3 * entrySize d ≤ f →
      upload_subdirF n env st d p pfx = upload_subdirF f env st d p pfx)
  ∧ (∀ f env st ds p pfx, 3 * entsSize ds + 1 ≤ n → 3 * entsSize ds + 1 ≤ f →
      upload_subdirsF n env st ds p pfx = upload_subdirsF f env st ds p pfx)
  ∧ (∀ f env st es p pfx, 3 * entsSize es + 2 ≤ n → 3 * entsSize es + 2 ≤ f →
      upload_directoryF n env st es p pfx = upload_directoryF f env st es p pfx) := by
  induction n using Nat.strong_induction_on with
  | _ n ih =>
    have Hsub : ∀ f env st d p pfx, 3 * entrySize d ≤ n → 3 * entrySize d ≤ f →
        upload_subdirF n env st d p pfx = upload_subdirF f env st d p pfx := by
      intro f env st d p pfx hn hf
      have hdp := entrySize_pos d
      obtain ⟨n', rfl⟩ : ∃ m, n = m + 1 := ⟨n - 1, by omega⟩
      obtain ⟨f', rfl⟩ : ∃ m, f = m + 1 := ⟨f - 1, by omega⟩
      cases d with
      | file nm c => rfl
      | dir name es =>
          simp only [upload_subdirF]
          simp only [entrySize] at hn hf hdp
          have h1 : 3 * entsSize es + 2 ≤ n' := by omega
          have h2 : 3 * entsSize es + 2 ≤ f' := by omega
          have hlt : n' < n' + 1 := by omega
          split
          · exact (ih n' hlt).2.2 f' env _ es _ _ h1 h2
          · rfl
    have Hsubs : ∀ ds f env st p pfx,
        3 * entsSize ds + 1 ≤ n → 3 * entsSize ds + 1 ≤ f →
        upload_subdirsF n env st ds p pfx = upload_subdirsF f env st ds p pfx := by
      intro ds f env st p pfx hn hf
      obtain ⟨n', rfl⟩ : ∃ m, n = m + 1 := ⟨n - 1, by omega⟩
      obtain ⟨f', rfl⟩ : ∃ m, f = m + 1 := ⟨f - 1, by omega⟩
      cases ds with
      | nil => rfl
      | cons d rest =>
          simp only [upload_subdirsF]
          have hdp := entrySize_pos d
          simp only [entsSize_cons] at hn hf
          have hlt : n' < n' + 1 := by omega
          have e1 : upload_subdirF n' env st d p pfx
              = upload_subdirF f' env st d p pfx :=
            (ih n' hlt).1 f' env st d p pfx (by omega) (by omega)
          rw [e1]
          exact (ih n' hlt).2.1 f' env _ rest p pfx (by omega) (by omega)
    refine ⟨Hsub, fun f env st ds p pfx hn hf => Hsubs ds f env st p pfx hn hf, ?_⟩
    intro f env st es p pfx hn hf
    obtain ⟨n', rfl⟩ : ∃ m, n = m + 1 := ⟨n - 1, by omega⟩
    obtain ⟨f', rfl⟩ : ∃ m, f = m + 1 := ⟨f - 1, by omega⟩
    simp only [upload_directoryF]
    have h1 := entsSize_filter_le isIncludedDir (sortEntries es)
    have h2 := entsSize_sortEntries es
    have hlt : n' < n' + 1 := by omega
    exact (ih n' hlt).2.1 f' env _ _ p pfx (by omega) (by omega)

/-- `upload_directory` from the source, with its canonical fuel. -/
def upload_directory (env : Env) (st : St) (es : List Entry)
    (parent_id pfx : String) : St :=
  upload_directoryF (3 * entsSize es + 2) env st es parent_id pfx

/-- The subdirectory loop of `upload_directory`, with its canonical fuel. -/
def upload_subdirs (env : Env) (st : St) (ds : List Entry)
    (parent_id pfx : String) : St :=
  upload_subdirsF (3 * entsSize ds + 1) env st ds parent_id pfx

/-- One iteration of the subdirectory loop, with its canonical fuel. -/
def upload_subdir (env : Env) (st : St) (d : Entry)
    (parent_id pfx : String) : St :=
  upload_subdirF (3 * entrySize d) env st d parent_id pfx

theorem upload_directoryF_fueled (g : Nat) (env : Env) (st : St)
    (es : List Entry) (p pfx : String) (hg : 3 * entsSize es + 2 ≤ g) :
    upload_directoryF g env st es p pfx = upload_directory env st es p pfx :=
  (walkF_fuelIrrel g).2.2 (3 * entsSize es + 2) env st es p pfx hg (le_refl _)

theorem upload_subdirsF_fueled (g : Nat) (env : Env) (st : St)
    (ds : List Entry) (p pfx : String) (hg : 3 * entsSize ds + 1 ≤ g) :
    upload_subdirsF g env st ds p pfx = upload_subdirs env st ds p pfx :=
  (walkF_fuelIrrel g).2.1 (3 * entsSize ds + 1) env st ds p pfx hg (le_refl _)

theorem upload_subdirF_fueled (g : Nat) (env : Env) (st : St)
    (d : Entry) (p pfx : String) (hg : 3 * entrySize d ≤ g) :
    upload_subdirF g env st d p pfx = upload_subdir env st d p pfx :=
  (walkF_fuelIrrel g).1 (3 * entrySize d) env st d p pfx hg (le_refl _)

/-- One iteration of `main`'s top-level subdirectory loop: the index page
takes the raw directory name as title and as the walker's title prefix. -/
def main_top_dir (env : Env) (st : St) (d : Entry) (root_id : String) : St :=
  match d with
  | .file _ _ => st
  | .dir name es =>
    let body := "<p>Artefacts for <strong>" ++ name ++ "</strong>.</p>"
    let res := create_page env .index st name body root_id
    if truthy res.2 then
      upload_directory env res.1 es (res.2.getD "") name
    else res.1

/-- The top-level subdirectory loop of `main`. -/
def main_top_dirs (env : Env) (st : St) (ds : List Entry)
    (root_id : String) : St :=
  match ds with
  | [] => st
  | d :: rest =>
    main_top_dirs env (main_top_dir env st d root_id) rest root_id

/-- Initial client state over a given remote space. -/
def initSt (r : Remote) : St := ⟨r, ⟨0, 0, 0, 0⟩, []⟩

/-- The upload portion of `main`: create the root page (aborting when that
fails), then upload top-level markdown files under it, then process the
top-level subdirectories.  The boolean is `false` exactly when the run was
aborted because the root page could not be created. -/
def runUpload (env : Env) (st : St) (root_title parent_id : String)
    (entries : List Entry) : St × Bool :=
  let root_body := "<p>Root page for <strong>" ++ root_title ++ "</strong>.</p>"
  let res := create_page env .root st root_title root_body parent_id
  if truthy res.2 then
    let root_id := res.2.getD ""
    let st := { res.1 with log := res.1.log ++ [Ev.visit entries] }
    let top_files := sortEntries (entries.filter isMdFile)
    let top_dirs := sortEntries (entries.filter isIncludedDir)
    let st := upload_files env st top_files root_id root_title
    (main_top_dirs env st top_dirs root_id, true)
  else (res.1, false)

/-- The `--dir` argument as resolved against the filesystem: the final path
component, and the directory listing when the path is a directory. -/
structure DirArg where
  name : String
  listing : Option (List Entry)

/-- Command-line arguments relevant to control flow. -/
structure Args where
  parentId : String
  dirArg : Option DirArg
  rootTitle : Option String
  delete : Option String
  dryRun : Bool

/-- How a `main` invocation ends. -/
inductive Outcome where
  /-- `get_auth` failed: `sys.exit(1)`. -/
  | authError
  /-- `parser.error("--dir is required for upload mode")`: exit code 2. -/
  | usageError
  /-- `--dir` names something that is not a directory: `sys.exit(1)`. -/
  | notDirError
  /-- the root page could not be created: `sys.exit(1)`. -/
  | rootError (st : St)
  /-- normal completion: exit code 0. -/
  | finished (st : St)

/-- Process exit code of each outcome. -/
def exitCode : Outcome → Nat
  | .authError => 1
  | .usageError => 2
  | .notDirError => 1
  | .rootError _ => 1
  | .finished _ => 0

/-- The run state of an outcome, when one was reached. -/
def outcomeSt : Outcome → Option St
  | .rootError st => some st
  | .finished st => some st
  | _ => none

/-- `main`: credential check, then delete mode or upload mode. -/
def runMain (env : Env) (args : Args) (r0 : Remote) : Outcome :=
  if env.email = "" ∨ env.token = "" then .authError
  else
    let st0 := initSt r0
    if truthy args.delete then
      .finished (delete_page env st0 (args.delete.getD "")).1
    else
      match args.dirArg with
      | none => .usageError
      | some da =>
        if da.name = "" then .usageError
        else
          match da.listing with
          | none => .notDirError
          | some entries =>
            let root_title :=
              if truthy args.rootTitle then args.rootTitle.getD ""
              else pyTitle da.name
            let res := runUpload env st0 root_title args.parentId entries
            if res.2 then .finished res.1 else .rootError res.1

/-! ## The plan: the titles a fully traversing run attempts, in order

When every create attempt returns a truthy id (dry-run mode, or a service
accepting every request), the walker's traversal — and hence the sequence of
titles passed to `create_page` — depends only on the tree and the title
prefixes, not on the remote state.  These pure functions compute it. -/

/-- Leaf-page titles of a file list, in order. -/
def planFiles (pfx : String) : List Entry → List String
  | [] => []
  | .file n _ :: rest =>
    (pfx ++ " - " ++ pretty_title (pathStem n)) :: planFiles pfx rest
  | .dir _ _ :: rest => planFiles pfx rest

mutual
/-- Fuel-indexed titles attempted by a full traversal of
`upload_directory`. -/
def planDirF : Nat → List Entry → String → List String
  | 0, _, _ => []
  | fuel + 1, es, pfx =>
    planFiles pfx ((sortEntries es).filter isMdFile)
      ++ planDirsF fuel ((sortEntries es).filter isIncludedDir) pfx

/-- Fuel-indexed titles attempted by a full traversal of the subdirectory
loop. -/
def planDirsF : Nat → List Entry → String → List String
  | 0, _, _ => []
  | fuel + 1, ds, pfx =>
    match ds with
    | [] => []
    | d :: rest => planSubF fuel d pfx ++ planDirsF fuel rest pfx

/-- Fuel-indexed titles attempted by a full traversal of one
subdirectory. -/
def planSubF : Nat → Entry → String → List String
  | 0, _, _ => []
  | fuel + 1, d, pfx =>
    match d with
    | .file _ _ => []
    | .dir name es =>
      (pfx ++ " / " ++ name) :: planDirF fuel es (pfx ++ " / " ++ name)
end

/-- Two sufficient fuels compute the same plan. -/
theorem planF_fuelIrrel (n : Nat) :
    (∀ f d pfx, 3 * entrySize d ≤ n → 3 * entrySize d ≤ f →
      planSubF n d pfx = planSubF f d pfx)
  ∧ (∀ f ds pfx, 3 * entsSize ds + 1 ≤ n → 3 * entsSize ds + 1 ≤ f →
      planDirsF n ds pfx = planDirsF f ds pfx)
  ∧ (∀ f es pfx, 3 * entsSize es + 2 ≤ n → 3 * entsSize es + 2 ≤ f →
      planDirF n es pfx = planDirF f es pfx) := by
  induction n using Nat.strong_induction_on with
  | _ n ih =>
    have Hsub : ∀ f d pfx, 3 * entrySize d ≤ n → 3 * entrySize d ≤ f →
        planSubF n d pfx = planSubF f d pfx := by
      intro f d pfx hn hf
      have hdp := entrySize_pos d
      obtain ⟨n', rfl⟩ : ∃ m, n = m + 1 := ⟨n - 1, by omega⟩
      obtain ⟨f', rfl⟩ : ∃ m, f = m + 1 := ⟨f - 1, by omega⟩
      cases d with
      | file nm c => rfl
      | dir name es =>
          simp only [planSubF]
          simp only [entrySize] at hn hf
          have hlt : n' < n' + 1 := by omega
          rw [(ih n' hlt).2.2 f' es _ (by omega) (by omega)]
    have Hsubs : ∀ ds f pfx, 3 * entsSize ds + 1 ≤ n → 3 * entsSize ds + 1 ≤ f →
        planDirsF n ds pfx = planDirsF f ds pfx := by
      intro ds f pfx hn hf
      obtain ⟨n', rfl⟩ : ∃ m, n = m + 1 := ⟨n - 1, by omega⟩
      obtain ⟨f', rfl⟩ : ∃ m, f = m + 1 := ⟨f - 1, by omega⟩
      cases ds with
      | nil => rfl
      | cons d rest =>
          simp only [planDirsF]
          have hdp := entrySize_pos d
          simp only [entsSize_cons] at hn hf
          have hlt : n' < n' + 1 := by omega
          rw [(ih n' hlt).1 f' d pfx (by omega) (by omega),
            (ih n' hlt).2.1 f' rest pfx (by omega) (by omega)]
    refine ⟨Hsub, fun f ds pfx hn hf => Hsubs ds f pfx hn hf, ?_⟩
    intro f es pfx hn hf
    obtain ⟨n', rfl⟩ : ∃ m, n = m + 1 := ⟨n - 1, by omega⟩
    obtain ⟨f', rfl⟩ : ∃ m, f = m + 1 := ⟨f - 1, by omega⟩
    simp only [planDirF]
    have h1 := entsSize_filter_le isIncludedDir (sortEntries es)
    have h2 := entsSize_sortEntries es
    have hlt : n' < n' + 1 := by omega
    rw [(ih n' hlt).2.1 f' _ pfx (by omega) (by omega)]

/-- Titles attempted by a full traversal of `upload_directory`. -/
def planDir (es : List Entry) (pfx : String) : List String :=
  planDirF (3 * entsSize es + 2) es pfx

/-- Titles attempted by a full traversal of the subdirectory loop. -/
def planDirs (ds : List Entry) (pfx : String) : List String :=
  planDirsF (3 * entsSize ds + 1) ds pfx

/-- Titles attempted by a full traversal of one subdirectory. -/
def planSub (d : Entry) (pfx : String) : List String :=
  planSubF (3 * entrySize d) d pfx

theorem planDirF_fueled (g : Nat) (es : List Entry) (pfx : String)
    (hg : 3 * entsSize es + 2 ≤ g) :
    planDirF g es pfx = planDir es pfx :=
  (planF_fuelIrrel g).2.2 (3 * entsSize es + 2) es pfx hg (le_refl _)

theorem planDirsF_fueled (g : Nat) (ds : List Entry) (pfx : String)
    (hg : 3 * entsSize ds + 1 ≤ g) :
    planDirsF g ds pfx = planDirs ds pfx :=
  (planF_fuelIrrel g).2.1 (3 * entsSize ds + 1) ds pfx hg (le_refl _)

theorem planSubF_fueled (g : Nat) (d : Entry) (pfx : String)
    (hg : 3 * entrySize d ≤ g) :
    planSubF g d pfx = planSub d pfx :=
  (planF_fuelIrrel g).1 (3 * entrySize d) d pfx hg (le_refl _)

/-- Titles attempted by a full traversal of one top-level subdirectory. -/
def planTop (d : Entry) : List String :=
  match d with
  | .file _ _ => []
  | .dir name es => name :: planDir es name

/-- Titles attempted by a full traversal of the top-level loop. -/
def planTops : List Entry → List String
  | [] => []
  | d :: rest => planTop d ++ planTops rest

/-- All titles attempted by a fully traversing upload run, in order. -/
def planUpload (root_title : String) (entries : List Entry) : List String :=
  root_title :: (planFiles root_title (sortEntries (entries.filter isMdFile))
    ++ planTops (sortEntries (entries.filter isIncludedDir)))

/-- Did `main` abort because the root page could not be created? -/
def isRootError : Outcome → Bool
  | .rootError _ => true
  | _ => false

/-- The remote pages reached by an outcome, projected to
(id, title, parent id). -/
def outcomePages : Outcome → List (String × String × String)
  | .finished st => st.remote.pages.map (fun p => (p.id, p.title, p.parentId))
  | .rootError st => st.remote.pages.map (fun p => (p.id, p.title, p.parentId))
  | _ => []

/-! ## Concrete sample inputs used by witnesses and counterexamples -/

/-- Credentials present, not dry, service accepts every request. -/
def envSample : Env :=
  ⟨false, "user@example.com", "secret-token", fun _ => true, fun _ => true⟩

/-- Same service, dry-run flag set. -/
def envSampleDry : Env :=
  ⟨true, "user@example.com", "secret-token", fun _ => true, fun _ => true⟩

/-- Credentials present, not dry, service rejects every request. -/
def envReject : Env :=
  ⟨false, "user@example.com", "secret-token", fun _ => false, fun _ => false⟩

/-- An empty remote space. -/
def emptyRemote : Remote := ⟨[], 0⟩

/-- The spec's scenario tree: `docs/` holding `intro.md` and
`guides/setup.md`. -/
def docsTree : List Entry :=
  [.file "intro.md" "hello", .dir "guides" [.file "setup.md" "world"]]

/-- Two files whose stems titleize to the same leaf title. -/
def cexTree : List Entry :=
  [.file "a-b.md" "x", .file "a_b.md" "y"]

/-- Upload-mode arguments for the scenario tree. -/
def argsDocs : Args := ⟨"P", some ⟨"docs", some docsTree⟩, none, none, false⟩

/-- Upload-mode arguments whose `--dir` names something that is not a
directory. -/
def argsNotDir : Args := ⟨"P", some ⟨"missing", none⟩, none, none, false⟩

/-- A document holding a heading, a table and a fenced code block. -/
def docC7 : String := "# Title\n\n| a | b |\n\n```\ncode\n```"

/-! ## Event counters over logs -/

/-- Is this event a `create_page` call for a file's content? -/
def isLeafAttempt : Ev → Bool
  | .attempt .leaf _ => true
  | _ => false

/-- Is this event a `create_page` call (of any kind)? -/
def isAttempt : Ev → Bool
  | .attempt _ _ => true
  | _ => false

/-- Is this event an issued create (POST) request? -/
def isPost : Ev → Bool
  | .post _ => true
  | _ => false

/-- Is this event an issued delete (DELETE) request? -/
def isDel : Ev → Bool
  | .del _ => true
  | _ => false

/-- Number of leaf-page create attempts in a log. -/
def leafCount (log : List Ev) : Nat := log.countP isLeafAttempt

/-- Number of `create_page` calls in a log. -/
def attemptCount (log : List Ev) : Nat := log.countP isAttempt

/-- Number of issued create requests in a log. -/
def postCount (log : List Ev) : Nat := log.countP isPost

/-- Number of issued delete requests in a log. -/
def delCount (log : List Ev) : Nat := log.countP isDel

/-- Number of issued mutating (create or delete) requests in a log. -/
def mutCount (log : List Ev) : Nat := postCount log + delCount log

/-- Sum, over the directory visits recorded in a log, of the number of
matching markdown documents in the visited directory's listing. -/
def visitSum (log : List Ev) : Nat :=
  (log.map (fun e => match e with | .visit es => mdCount es | _ => 0)).sum

/-- The titles of the `create_page` calls recorded in a log, in order. -/
def attemptTitles (log : List Ev) : List String :=
  log.filterMap (fun e => match e with | .attempt _ t => some t | _ => none)

theorem leafCount_append (a b : List Ev) :
    leafCount (a ++ b) = leafCount a + leafCount b := List.countP_append ..

theorem attemptCount_append (a b : List Ev) :
    attemptCount (a ++ b) = attemptCount a + attemptCount b := List.countP_append ..

theorem postCount_append (a b : List Ev) :
    postCount (a ++ b) = postCount a + postCount b := List.countP_append ..

theorem delCount_append (a b : List Ev) :
    delCount (a ++ b) = delCount a + delCount b := List.countP_append ..

theorem visitSum_append (a b : List Ev) :
    visitSum (a ++ b) = visitSum a + visitSum b := by
  simp [visitSum]

theorem attemptTitles_append (a b : List Ev) :
    attemptTitles (a ++ b) = attemptTitles a ++ attemptTitles b := by
  simp [attemptTitles]

/-! ## `create_page` case lemmas -/

theorem create_page_found (env : Env) (k : PageKind) (st : St)
    (title body pid : String)
    (h : truthy (find_page st.remote title) = true) :
    create_page env k st title body pid =
      ({ st with stats := { st.stats with skipped := st.stats.skipped + 1 },
                 log := st.log ++ [Ev.attempt k title] },
        find_page st.remote title) := by
  simp only [create_page, h, if_true]

theorem create_page_dry (env : Env) (k : PageKind) (st : St)
    (title body pid : String)
    (h : truthy (find_page st.remote title) = false)
    (hd : env.dryRun = true) :
    create_page env k st title body pid =
      ({ st with stats := { st.stats with created := st.stats.created + 1 },
                 log := st.log ++ [Ev.attempt k title] },
        some "dry-run-id") := by
  simp only [create_page, h, hd, Bool.false_eq_true, if_false, if_true]

theorem create_page_ok (env : Env) (k : PageKind) (st : St)
    (title body pid : String)
    (h : truthy (find_page st.remote title) = false)
    (hd : env.dryRun = false)
    (hc : env.createOk title = true) :
    create_page env k st title body pid =
      (⟨⟨st.remote.pages ++ [⟨"id" ++ toString st.remote.next, title, pid, body⟩],
          st.remote.next + 1⟩,
        { st.stats with created := st.stats.created + 1 },
        st.log ++ [Ev.attempt k title, Ev.post title]⟩,
        some ("id" ++ toString st.remote.next)) := by
  simp only [create_page, h, hd, hc, Bool.false_eq_true, if_false, if_true,
    List.append_assoc, List.singleton_append]

theorem create_page_fail (env : Env) (k : PageKind) (st : St)
    (title body pid : String)
    (h : truthy (find_page st.remote title) = false)
    (hd : env.dryRun = false)
    (hc : env.createOk title = false) :
    create_page env k st title body pid =
      ({ st with stats := { st.stats with failed := st.stats.failed + 1 },
                 log := st.log ++ [Ev.attempt k title, Ev.post title] }, none) := by
  simp only [create_page, h, hd, hc, Bool.false_eq_true, if_false, if_true,
    List.append_assoc, List.singleton_append]

/-! ## Walker unfolding lemmas -/

theorem upload_directory_eq (env : Env) (st : St) (es : List Entry)
    (p pfx : String) :
    upload_directory env st es p pfx =
      upload_subdirs env
        (upload_files env { st with log := st.log ++ [Ev.visit es] }
          ((sortEntries es).filter isMdFile) p pfx)
        ((sortEntries es).filter isIncludedDir) p pfx := by
  show upload_directoryF (3 * entsSize es + 1 + 1) env st es p pfx = _
  simp only [upload_directoryF]
  exact upload_subdirsF_fueled _ env _ _ p pfx (by
    have h1 := entsSize_filter_le isIncludedDir (sortEntries es)
    have h2 := entsSize_sortEntries es
    omega)

theorem upload_subdirs_nil (env : Env) (st : St) (p pfx : String) :
    upload_subdirs env st [] p pfx = st := rfl

theorem upload_subdirs_cons (env : Env) (st : St) (d : Entry)
    (rest : List Entry) (p pfx : String) :
    upload_subdirs env st (d :: rest) p pfx =
      upload_subdirs env (upload_subdir env st d p pfx) rest p pfx := by
  show upload_subdirsF (3 * entsSize (d :: rest) + 1) env st (d :: rest) p pfx = _
  simp only [upload_subdirsF]
  have hdp := entrySize_pos d
  rw [upload_subdirF_fueled (3 * entsSize (d :: rest)) env st d p pfx
    (by simp only [entsSize_cons]; omega)]
  exact upload_subdirsF_fueled _ env _ rest p pfx
    (by simp only [entsSize_cons]; omega)

theorem upload_subdir_file (env : Env) (st : St) (n c : String)
    (p pfx : String) :
    upload_subdir env st (.file n c) p pfx = st := rfl

theorem upload_subdir_dir (env : Env) (st : St) (name : String)
    (es : List Entry) (p pfx : String) :
    upload_subdir env st (.dir name es) p pfx =
      (let res := create_page env .index st (pfx ++ " / " ++ name)
        ("<p>Index page for <strong>" ++ name ++ "</strong>.</p>") p
       if truthy res.2 then
         upload_directory env res.1 es (res.2.getD "") (pfx ++ " / " ++ name)
       else res.1) := by
  have hfuel : 3 * entrySize (Entry.dir name es) = 3 * entsSize es + 2 + 1 := by
    simp only [entrySize]; omega
  show upload_subdirF (3 * entrySize (Entry.dir name es)) env st
    (Entry.dir name es) p pfx = _
  rw [hfuel]
  simp only [upload_subdirF]
  rfl

theorem main_top_dir_dir (env : Env) (st : St) (name : String)
    (es : List Entry) (root_id : String) :
    main_top_dir env st (.dir name es) root_id =
      (let res := create_page env .index st name
        ("<p>Artefacts for <strong>" ++ name ++ "</strong>.</p>") root_id
       if truthy res.2 then
         upload_directory env res.1 es (res.2.getD "") name
       else res.1) := rfl

/-! ## Segment invariants (unconditional) -/

/-- Is this entry a file? -/
def isFileE : Entry → Bool
  | .file _ _ => true
  | .dir _ _ => false

/-- Unconditional facts about a segment of a run that took state `st` to
state `st'`, appending `delta` to the log: counters only grow, each
`create_page` call bumps the created/skipped/failed total by exactly one,
the deleted counter is untouched, no DELETE is issued, and in dry-run mode
no POST is issued and the remote space is untouched. -/
structure SegOk (env : Env) (st st' : St) (delta : List Ev) : Prop where
  log : st'.log = st.log ++ delta
  sum : st'.stats.created + st'.stats.skipped + st'.stats.failed
      = st.stats.created + st.stats.skipped + st.stats.failed + attemptCount delta
  moC : st.stats.created ≤ st'.stats.created
  moS : st.stats.skipped ≤ st'.stats.skipped
  moF : st.stats.failed ≤ st'.stats.failed
  delEq : st'.stats.deleted = st.stats.deleted
  noDel : delCount delta = 0
  dry : env.dryRun = true → postCount delta = 0 ∧ st'.remote = st.remote

theorem SegOk.seg_refl (env : Env) (st : St) : SegOk env st st [] := by
  constructor <;> simp [attemptCount, delCount, postCount]

theorem SegOk.seg_trans {env : Env} {st st₁ st₂ : St} {Δ₁ Δ₂ : List Ev}
    (a : SegOk env st st₁ Δ₁) (b : SegOk env st₁ st₂ Δ₂) :
    SegOk env st st₂ (Δ₁ ++ Δ₂) := by
  constructor
  · rw [b.log, a.log, List.append_assoc]
  · have := a.sum; have := b.sum
    rw [attemptCount_append]; omega
  · exact le_trans a.moC b.moC
  · exact le_trans a.moS b.moS
  · exact le_trans a.moF b.moF
  · rw [b.delEq, a.delEq]
  · rw [delCount_append, a.noDel, b.noDel]
  · intro h
    obtain ⟨p1, r1⟩ := a.dry h
    obtain ⟨p2, r2⟩ := b.dry h
    exact ⟨by rw [postCount_append, p1, p2], by rw [r2, r1]⟩

/-- A pure log append (the `visit` record) is a valid segment. -/
theorem SegOk.ofLogAppend (env : Env) (st : St) (evs : List Ev)
    (hA : evs.countP isAttempt = 0) (hP : evs.countP isPost = 0)
    (hD : evs.countP isDel = 0) :
    SegOk env st { st with log := st.log ++ evs } evs := by
  constructor <;>
    simp [attemptCount, delCount, postCount, hA, hP, hD]

/-- `create_page` is a valid segment: its delta is one attempt, possibly
followed by one POST (never in dry-run mode), it bumps the
created+skipped+failed total by exactly one, and it is a leaf attempt
exactly when called from the file loop. -/
theorem create_page_seg (env : Env) (k : PageKind) (st : St)
    (title body pid : String) :
    ∃ Δ, SegOk env st (create_page env k st title body pid).1 Δ ∧
      attemptCount Δ = 1 ∧
      leafCount Δ = (if k = PageKind.leaf then 1 else 0) ∧
      visitSum Δ = 0 ∧
      attemptTitles Δ = [title] := by
  cases hf : truthy (find_page st.remote title) with
  | true =>
    refine ⟨[Ev.attempt k title], ?_, ?_, ?_, ?_, ?_⟩
    · rw [create_page_found env k st title body pid hf]
      constructor <;>
        (try simp [attemptCount, delCount, postCount, isAttempt, isDel, isPost,
          List.countP_cons]) <;> try omega
    · simp [attemptCount, List.countP_cons, isAttempt]
    · cases k <;> simp [leafCount, List.countP_cons, isLeafAttempt]
    · simp [visitSum]
    · simp [attemptTitles]
  | false =>
    cases hd : env.dryRun with
    | true =>
      refine ⟨[Ev.attempt k title], ?_, ?_, ?_, ?_, ?_⟩
      · rw [create_page_dry env k st title body pid hf hd]
        constructor <;>
          (try simp [attemptCount, delCount, postCount, isAttempt, isDel, isPost,
            List.countP_cons]) <;> try omega
      · simp [attemptCount, List.countP_cons, isAttempt]
      · cases k <;> simp [leafCount, List.countP_cons, isLeafAttempt]
      · simp [visitSum]
      · simp [attemptTitles]
    | false =>
      cases hc : env.createOk title with
      | true =>
        refine ⟨[Ev.attempt k title, Ev.post title], ?_, ?_, ?_, ?_, ?_⟩
        · rw [create_page_ok env k st title body pid hf hd hc]
          constructor <;>
            (try simp [attemptCount, delCount, postCount, isAttempt, isDel, isPost,
              List.countP_cons, hd]) <;> try omega
        · simp [attemptCount, List.countP_cons, isAttempt, isPost]
        · cases k <;>
            simp [leafCount, List.countP_cons, isLeafAttempt]
        · simp [visitSum]
        · simp [attemptTitles]
      | false =>
        refine ⟨[Ev.attempt k title, Ev.post title], ?_, ?_, ?_, ?_, ?_⟩
        · rw [create_page_fail env k st title body pid hf hd hc]
          constructor <;>
            (try simp [attemptCount, delCount, postCount, isAttempt, isDel, isPost,
              List.countP_cons, hd]) <;> try omega
        · simp [attemptCount, List.countP_cons, isAttempt, isPost]
        · cases k <;>
            simp [leafCount, List.countP_cons, isLeafAttempt]
        · simp [visitSum]
        · simp [attemptTitles]

/-- Every `create_page` call's log delta begins with its attempt event. -/
theorem create_page_log (env : Env) (k : PageKind) (st : St)
    (title body pid : String) :
    ∃ t, (create_page env k st title body pid).1.log
      = st.log ++ Ev.attempt k title :: t := by
  cases hf : truthy (find_page st.remote title) with
  | true =>
    rw [create_page_found env k st title body pid hf]
    exact ⟨[], rfl⟩
  | false =>
    cases hd : env.dryRun with
    | true =>
      rw [create_page_dry env k st title body pid hf hd]
      exact ⟨[], rfl⟩
    | false =>
      cases hc : env.createOk title with
      | true =>
        rw [create_page_ok env k st title body pid hf hd hc]
        exact ⟨[Ev.post title], rfl⟩
      | false =>
        rw [create_page_fail env k st title body pid hf hd hc]
        exact ⟨[Ev.post title], rfl⟩

/-! ## Sorting preserves membership and counts -/

theorem mem_insertE (a x : Entry) (l : List Entry) :
    a ∈ insertE x l ↔ a = x ∨ a ∈ l := by
  induction l with
  | nil => simp [insertE]
  | cons y ys ih =>
    simp only [insertE]
    split
    · simp
    · simp only [List.mem_cons, ih]; tauto

theorem mem_sortEntries (a : Entry) (l : List Entry) :
    a ∈ sortEntries l ↔ a ∈ l := by
  induction l with
  | nil => simp [sortEntries]
  | cons x xs ih => simp [sortEntries, mem_insertE, ih]

theorem countP_insertE (p : Entry → Bool) (x : Entry) (l : List Entry) :
    (insertE x l).countP p = l.countP p + if p x then 1 else 0 := by
  induction l with
  | nil => simp [insertE, List.countP_cons]
  | cons y ys ih =>
    simp only [insertE]
    split
    · simp [List.countP_cons]; try omega
    · simp [List.countP_cons, ih]; try omega

theorem countP_sortEntries (p : Entry → Bool) (l : List Entry) :
    (sortEntries l).countP p = l.countP p := by
  induction l with
  | nil => rfl
  | cons x xs ih => simp [sortEntries, countP_insertE, ih, List.countP_cons]

theorem length_sortEntries (l : List Entry) :
    (sortEntries l).length = l.length := by
  induction l with
  | nil => rfl
  | cons x xs ih =>
    have : ∀ y m, (insertE y m).length = m.length + 1 := by
      intro y m
      induction m with
      | nil => rfl
      | cons z zs ihm => simp only [insertE]; split <;> simp [ihm]
    simp [sortEntries, this, ih]

/-- `isMdFile` entries are files. -/
theorem isFileE_of_isMdFile (e : Entry) (h : isMdFile e = true) :
    isFileE e = true := by
  cases e with
  | file n c => rfl
  | dir n es => simp [isMdFile] at h

/-- The file loop of a directory attempts exactly the directory's matching
markdown documents: sorting does not change the count. -/
theorem countP_isFileE_filter_sort (es : List Entry) :
    ((sortEntries es).filter isMdFile).countP isFileE = mdCount es := by
  have h1 : ((sortEntries es).filter isMdFile).countP isFileE
      = ((sortEntries es).filter isMdFile).length := by
    rw [List.countP_eq_length]
    intro a ha
    exact isFileE_of_isMdFile a (List.of_mem_filter ha)
  rw [h1, ← List.countP_eq_length_filter, countP_sortEntries,
    List.countP_eq_length_filter]
  rfl

/-- Same, for `main`'s filter-then-sort order. -/
theorem countP_isFileE_sort_filter (es : List Entry) :
    (sortEntries (es.filter isMdFile)).countP isFileE = mdCount es := by
  have h1 : (sortEntries (es.filter isMdFile)).countP isFileE
      = (sortEntries (es.filter isMdFile)).length := by
    rw [List.countP_eq_length]
    intro a ha
    rw [mem_sortEntries] at ha
    exact isFileE_of_isMdFile a (List.of_mem_filter ha)
  rw [h1, length_sortEntries]
  rfl

/-! ## The file loop as a segment -/

theorem upload_files_seg (env : Env) (st : St) (fs : List Entry)
    (p pfx : String) :
    ∃ Δ, SegOk env st (upload_files env st fs p pfx) Δ ∧
      leafCount Δ = fs.countP isFileE ∧
      attemptCount Δ = fs.countP isFileE ∧
      visitSum Δ = 0 ∧
      attemptTitles Δ = planFiles pfx fs := by
  induction fs generalizing st with
  | nil =>
    exact ⟨[], SegOk.seg_refl env st, by simp [leafCount, attemptCount, visitSum],
      by simp [leafCount, attemptCount, visitSum],
      by simp [visitSum], by simp [attemptTitles, planFiles]⟩
  | cons e rest ih =>
    cases e with
    | file n c =>
      simp only [upload_files]
      obtain ⟨Δ₁, seg₁, hA₁, hL₁, hV₁, hT₁⟩ :=
        create_page_seg env .leaf st (pfx ++ " - " ++ pretty_title (pathStem n))
          (md_to_storage c) p
      obtain ⟨Δ₂, seg₂, hL₂, hA₂, hV₂, hT₂⟩ := ih _
      refine ⟨Δ₁ ++ Δ₂, seg₁.seg_trans seg₂, ?_, ?_, ?_, ?_⟩
      · rw [leafCount_append, hL₁, hL₂, List.countP_cons]
        simp [isFileE]; omega
      · rw [attemptCount_append, hA₁, hA₂, List.countP_cons]
        simp [isFileE]; omega
      · rw [visitSum_append, hV₁, hV₂]
      · rw [attemptTitles_append, hT₁, hT₂]
        simp [planFiles]
    | dir name es =>
      simp only [upload_files]
      obtain ⟨Δ₂, seg₂, hL₂, hA₂, hV₂, hT₂⟩ := ih st
      refine ⟨Δ₂, seg₂, ?_, ?_, hV₂, ?_⟩
      · rw [hL₂, List.countP_cons]; simp [isFileE]
      · rw [hA₂, List.countP_cons]; simp [isFileE]
      · rw [hT₂]; simp [planFiles]

/-! ## Balanced segments: leaf attempts match visited directories -/

/-- A directory-walk segment: a valid segment whose leaf-attempt count
equals the sum, over the visits it records, of the matching markdown
documents in the visited directory. -/
def DirSeg (env : Env) (st st' : St) : Prop :=
  ∃ Δ, SegOk env st st' Δ ∧ leafCount Δ = visitSum Δ

theorem DirSeg.dirseg_refl (env : Env) (st : St) : DirSeg env st st :=
  ⟨[], SegOk.seg_refl env st, by simp [leafCount, visitSum]⟩

theorem DirSeg.dirseg_trans {env : Env} {st st₁ st₂ : St}
    (a : DirSeg env st st₁) (b : DirSeg env st₁ st₂) : DirSeg env st st₂ := by
  obtain ⟨Δ₁, s₁, h₁⟩ := a
  obtain ⟨Δ₂, s₂, h₂⟩ := b
  exact ⟨Δ₁ ++ Δ₂, s₁.seg_trans s₂,
    by rw [leafCount_append, visitSum_append, h₁, h₂]⟩

/-- An index or root `create_page` call is a balanced segment. -/
theorem DirSeg.ofCreate (env : Env) (k : PageKind) (st : St)
    (title body pid : String) (hk : k ≠ PageKind.leaf) :
    DirSeg env st (create_page env k st title body pid).1 := by
  obtain ⟨Δ, seg, _, hL, hV, _⟩ := create_page_seg env k st title body pid
  exact ⟨Δ, seg, by rw [hL, hV, if_neg hk]⟩

/-- The walker's three mutually recursive functions all produce balanced
segments, by strong induction on the tree size. -/
theorem walk_dirseg (n : Nat) :
    (∀ env st d p pfx, entrySize d ≤ n →
      DirSeg env st (upload_subdir env st d p pfx))
  ∧ (∀ env st ds p pfx, entsSize ds ≤ n →
      DirSeg env st (upload_subdirs env st ds p pfx))
  ∧ (∀ env st es p pfx, entsSize es ≤ n →
      DirSeg env st (upload_directory env st es p pfx)) := by
  induction n using Nat.strong_induction_on with
  | _ n ih =>
    have Hsub : ∀ env st d p pfx, entrySize d ≤ n →
        DirSeg env st (upload_subdir env st d p pfx) := by
      intro env st d p pfx hle
      cases d with
      | file nm c => rw [upload_subdir_file]; exact DirSeg.dirseg_refl env st
      | dir name es =>
        rw [upload_subdir_dir]
        simp only
        have hsz : entsSize es ≤ n - 1 ∧ 1 ≤ n := by
          simp only [entrySize] at hle; omega
        have hcr := DirSeg.ofCreate env .index st (pfx ++ " / " ++ name)
          ("<p>Index page for <strong>" ++ name ++ "</strong>.</p>") p
          (by simp)
        have hlt : n - 1 < n := by omega
        split
        · exact hcr.dirseg_trans ((ih (n - 1) hlt).2.2 _ _ _ _ _ hsz.1)
        · exact hcr
    have Hsubs : ∀ ds env st p pfx, entsSize ds ≤ n →
        DirSeg env st (upload_subdirs env st ds p pfx) := by
      intro ds
      induction ds with
      | nil =>
        intro env st p pfx _
        rw [upload_subdirs_nil]; exact DirSeg.dirseg_refl env st
      | cons d rest ihl =>
        intro env st p pfx hle
        rw [upload_subdirs_cons]
        have h1 : entrySize d ≤ n := by
          simp only [entsSize_cons] at hle; omega
        have h2 : entsSize rest ≤ n := by
          have := entrySize_pos d
          simp only [entsSize_cons] at hle; omega
        exact (Hsub env st d p pfx h1).dirseg_trans (ihl env _ p pfx h2)
    refine ⟨Hsub, fun env st ds p pfx h => Hsubs ds env st p pfx h, ?_⟩
    intro env st es p pfx hle
    rw [upload_directory_eq]
    have hvis : SegOk env st { st with log := st.log ++ [Ev.visit es] }
        [Ev.visit es] :=
      SegOk.ofLogAppend env st [Ev.visit es]
        (by simp [List.countP_cons, isAttempt])
        (by simp [List.countP_cons, isPost])
        (by simp [List.countP_cons, isDel])
    obtain ⟨Δf, segF, hLf, _, hVf, _⟩ :=
      upload_files_seg env { st with log := st.log ++ [Ev.visit es] }
        ((sortEntries es).filter isMdFile) p pfx
    have hds : entsSize ((sortEntries es).filter isIncludedDir) ≤ n := by
      have h1 := entsSize_filter_le isIncludedDir (sortEntries es)
      have h2 := entsSize_sortEntries es
      omega
    obtain ⟨Δd, segD, hBd⟩ := Hsubs _ env _ p pfx hds
    refine ⟨[Ev.visit es] ++ Δf ++ Δd,
      (hvis.seg_trans segF).seg_trans segD, ?_⟩
    rw [leafCount_append, leafCount_append, visitSum_append, visitSum_append,
      hLf, hVf, hBd, countP_isFileE_filter_sort]
    simp [leafCount, visitSum, List.countP_cons, isLeafAttempt, mdCount]

/-- `upload_directory` always produces a balanced, well-shaped segment. -/
theorem upload_directory_dirseg (env : Env) (st : St) (es : List Entry)
    (p pfx : String) : DirSeg env st (upload_directory env st es p pfx) :=
  (walk_dirseg (entsSize es)).2.2 env st es p pfx (le_refl _)

/-- The subdirectory loop always produces a balanced, well-shaped segment. -/
theorem upload_subdirs_dirseg (env : Env) (st : St) (ds : List Entry)
    (p pfx : String) : DirSeg env st (upload_subdirs env st ds p pfx) :=
  (walk_dirseg (entsSize ds)).2.1 env st ds p pfx (le_refl _)

/-- One top-level subdirectory iteration is a balanced segment. -/
theorem main_top_dir_dirseg (env : Env) (st : St) (d : Entry)
    (root_id : String) : DirSeg env st (main_top_dir env st d root_id) := by
  cases d with
  | file n c => exact DirSeg.dirseg_refl env st
  | dir name es =>
    rw [main_top_dir_dir]
    simp only
    have hcr := DirSeg.ofCreate env .index st name
      ("<p>Artefacts for <strong>" ++ name ++ "</strong>.</p>") root_id (by simp)
    split
    · exact hcr.dirseg_trans (upload_directory_dirseg env _ es _ name)
    · exact hcr

/-- The whole top-level subdirectory loop is a balanced segment. -/
theorem main_top_dirs_dirseg (env : Env) (st : St) (ds : List Entry)
    (root_id : String) : DirSeg env st (main_top_dirs env st ds root_id) := by
  induction ds generalizing st with
  | nil => exact DirSeg.dirseg_refl env st
  | cons d rest ih =>
    exact (main_top_dir_dirseg env st d root_id).dirseg_trans (ih _)

/-- A whole upload run (root page, top-level files, top-level directories,
recursion) is a balanced segment, whether or not it aborted at the root. -/
theorem runUpload_dirseg (env : Env) (st : St) (rt pid : String)
    (entries : List Entry) :
    DirSeg env st (runUpload env st rt pid entries).1 := by
  have hcr := DirSeg.ofCreate env .root st rt
    ("<p>Root page for <strong>" ++ rt ++ "</strong>.</p>") pid (by simp)
  simp only [runUpload]
  split
  · refine hcr.dirseg_trans ?_
    set st₁ := (create_page env .root st rt
      ("<p>Root page for <strong>" ++ rt ++ "</strong>.</p>") pid).1
    have hvis : SegOk env st₁ { st₁ with log := st₁.log ++ [Ev.visit entries] }
        [Ev.visit entries] :=
      SegOk.ofLogAppend env st₁ [Ev.visit entries]
        (by simp [List.countP_cons, isAttempt])
        (by simp [List.countP_cons, isPost])
        (by simp [List.countP_cons, isDel])
    obtain ⟨Δf, segF, hLf, _, hVf, _⟩ :=
      upload_files_seg env { st₁ with log := st₁.log ++ [Ev.visit entries] }
        (sortEntries (entries.filter isMdFile)) _ rt
    obtain ⟨Δd, segD, hBd⟩ := main_top_dirs_dirseg env _
      (sortEntries (entries.filter isIncludedDir)) _
    refine ⟨[Ev.visit entries] ++ Δf ++ Δd, (hvis.seg_trans segF).seg_trans segD, ?_⟩
    rw [leafCount_append, leafCount_append, visitSum_append, visitSum_append,
      hLf, hVf, hBd, countP_isFileE_sort_filter]
    simp [leafCount, visitSum, List.countP_cons, isLeafAttempt, mdCount]
  · exact hcr

/-! ## Title lookup facts -/

/-- Under well-formed remotes, the truthiness of `find_page`'s result is
exactly title membership. -/
theorem truthy_find (r : Remote) (t : String) (wf : WFRemote r) :
    truthy (find_page r t) = hasT r t := by
  obtain ⟨ps, n⟩ := r
  simp only [WFRemote] at wf
  simp only [find_page, hasT]
  induction ps with
  | nil => simp [truthy]
  | cons p ps ih =>
    simp only [List.find?_cons, List.any_cons] at *
    by_cases h : p.title == t
    · simp only [h, if_pos, Bool.true_or, Option.map_some']
      simp [truthy, wf p (by simp)]
    · simp only [h, Bool.false_or, if_neg, Bool.false_eq_true,
        not_false_iff]
      exact ih (fun q hq => wf q (by simp [hq]))

/-- A truthy `find_page` result implies the title is present (without any
well-formedness assumption). -/
theorem hasT_of_truthy_find (r : Remote) (t : String)
    (h : truthy (find_page r t) = true) : hasT r t = true := by
  obtain ⟨ps, n⟩ := r
  simp only [find_page] at h
  simp only [hasT]
  induction ps with
  | nil => simp [truthy] at h
  | cons p ps ih =>
    by_cases hp : p.title == t
    · simp [hp]
    · simp only [List.find?_cons, hp, if_neg, Bool.false_eq_true,
        not_false_iff] at h
      simp only [List.any_cons, hp, Bool.false_or]
      exact ih h

theorem hasT_append (ps : List RPage) (pg : RPage) (n m : Nat) (t : String) :
    hasT ⟨ps ++ [pg], n⟩ t = (hasT ⟨ps, m⟩ t || (pg.title == t)) := by
  simp [hasT, List.any_append]

theorem mintedId_ne_empty (n : Nat) : ("id" ++ toString n) ≠ "" := by
  intro h
  have hl := congrArg String.length h
  rw [String.length_append] at hl
  have h2 : "id".length = 2 := rfl
  have h0 : "".length = 0 := rfl
  omega

theorem WFRemote_append (r : Remote) (pg : RPage) (k : Nat)
    (wf : WFRemote r) (h : pg.id ≠ "") :
    WFRemote ⟨r.pages ++ [pg], k⟩ := by
  intro p hp
  rcases List.mem_append.mp hp with h1 | h1
  · exact wf p h1
  · simp at h1; rw [h1]; exact h

/-! ## Full-traversal runs against an all-accepting service -/

/-- Result facts of a segment of a real (non-dry) run in which every issued
create request succeeds, relative to the titles `pl` the segment attempts:
the remote gains exactly the attempted titles, nothing fails, each attempt
is created or skipped, a segment whose titles all pre-exist changes nothing
and creates nothing, and (for duplicate-free plans) the created count is
exactly the number of titles not already present. -/
structure RealRes (st st' : St) (pl : List String) : Prop where
  wf : WFRemote st'.remote
  iff : ∀ t, hasT st'.remote t = true ↔ hasT st.remote t = true ∨ t ∈ pl
  failed : st'.stats.failed = st.stats.failed
  deleted : st'.stats.deleted = st.stats.deleted
  sum : st'.stats.created + st'.stats.skipped
      = st.stats.created + st.stats.skipped + pl.length
  allFound : (∀ t ∈ pl, hasT st.remote t = true) →
    st'.remote = st.remote ∧ st'.stats.created = st.stats.created
  nodup : pl.Nodup → st'.stats.created
      = st.stats.created + (pl.filter (fun t => !(hasT st.remote t))).length

/-- A segment of a real all-success run, guarded by well-formedness of the
incoming remote state. -/
def FullRun (st st' : St) (pl : List String) : Prop :=
  WFRemote st.remote → RealRes st st' pl

theorem FullRun.full_refl (st : St) : FullRun st st [] := by
  intro wf
  constructor
  · exact wf
  · simp
  · rfl
  · rfl
  · simp
  · exact fun _ => ⟨rfl, rfl⟩
  · simp

theorem FullRun.full_trans {st st₁ st₂ : St} {pl₁ pl₂ : List String}
    (a : FullRun st st₁ pl₁) (b : FullRun st₁ st₂ pl₂) :
    FullRun st st₂ (pl₁ ++ pl₂) := by
  intro wf
  have ra := a wf
  have rb := b ra.wf
  constructor
  · exact rb.wf
  · intro t
    rw [rb.iff t, ra.iff t, List.mem_append]
    tauto
  · rw [rb.failed, ra.failed]
  · rw [rb.deleted, ra.deleted]
  · have := ra.sum; have := rb.sum
    rw [List.length_append]; omega
  · intro hp
    obtain ⟨hr1, hc1⟩ := ra.allFound (fun t ht => hp t (by simp [ht]))
    obtain ⟨hr2, hc2⟩ := rb.allFound (fun t ht => by
      rw [hr1]; exact hp t (by simp [ht]))
    exact ⟨by rw [hr2, hr1], by rw [hc2, hc1]⟩
  · intro hn
    rw [List.nodup_append] at hn
    obtain ⟨hn1, hn2, hdisj⟩ := hn
    have hc1 := ra.nodup hn1
    have hc2 := rb.nodup hn2
    rw [hc2, hc1]
    have hcong : (pl₂.filter (fun t => !(hasT st₁.remote t))).length
        = (pl₂.filter (fun t => !(hasT st.remote t))).length := by
      rw [← List.countP_eq_length_filter, ← List.countP_eq_length_filter]
      refine List.countP_congr (fun t ht => ?_)
      have hnot : t ∉ pl₁ := fun hmem => hdisj hmem ht
      have := ra.iff t
      cases h1 : hasT st₁.remote t <;> cases h2 : hasT st.remote t <;>
        simp_all
    rw [hcong, List.filter_append, List.length_append]
    omega

/-- A pure log append neither touches the remote nor the counters. -/
theorem FullRun.full_ofLog (st : St) (l : List Ev) :
    FullRun st { st with log := l } [] := by
  intro wf
  constructor
  · exact wf
  · simp
  · rfl
  · rfl
  · simp
  · exact fun _ => ⟨rfl, rfl⟩
  · simp

/-! ## Plan unfolding lemmas -/

theorem planDir_eq (es : List Entry) (pfx : String) :
    planDir es pfx = planFiles pfx ((sortEntries es).filter isMdFile)
      ++ planDirs ((sortEntries es).filter isIncludedDir) pfx := by
  show planDirF (3 * entsSize es + 1 + 1) es pfx = _
  simp only [planDirF]
  rw [planDirsF_fueled _ _ pfx (by
    have h1 := entsSize_filter_le isIncludedDir (sortEntries es)
    have h2 := entsSize_sortEntries es
    omega)]

theorem planDirs_nil (pfx : String) : planDirs [] pfx = [] := rfl

theorem planDirs_cons (d : Entry) (rest : List Entry) (pfx : String) :
    planDirs (d :: rest) pfx = planSub d pfx ++ planDirs rest pfx := by
  show planDirsF (3 * entsSize (d :: rest) + 1) (d :: rest) pfx = _
  simp only [planDirsF]
  have hdp := entrySize_pos d
  rw [planSubF_fueled (3 * entsSize (d :: rest)) d pfx
      (by simp only [entsSize_cons]; omega),
    planDirsF_fueled _ rest pfx (by simp only [entsSize_cons]; omega)]

theorem planSub_file (n c : String) (pfx : String) :
    planSub (.file n c) pfx = [] := rfl

theorem planSub_dir (name : String) (es : List Entry) (pfx : String) :
    planSub (.dir name es) pfx =
      (pfx ++ " / " ++ name) :: planDir es (pfx ++ " / " ++ name) := by
  have hfuel : 3 * entrySize (Entry.dir name es) = 3 * entsSize es + 2 + 1 := by
    simp only [entrySize]; omega
  show planSubF (3 * entrySize (Entry.dir name es)) (Entry.dir name es) pfx = _
  rw [hfuel]
  simp only [planSubF]
  rfl

/-! ## `create_page` under an all-accepting real environment -/

theorem create_page_fullrun (env : Env) (k : PageKind) (st : St)
    (title body pid : String)
    (hd : env.dryRun = false) (hc : ∀ t, env.createOk t = true) :
    FullRun st (create_page env k st title body pid).1 [title] ∧
      truthy (create_page env k st title body pid).2 = true := by
  cases hf : truthy (find_page st.remote title) with
  | true =>
    rw [create_page_found env k st title body pid hf]
    constructor
    · intro wf
      constructor
      · exact wf
      · intro t
        simp only [List.mem_singleton]
        constructor
        · exact Or.inl
        · rintro (h | rfl)
          · exact h
          · exact hasT_of_truthy_find st.remote t hf
      · rfl
      · rfl
      · simp; omega
      · exact fun _ => ⟨rfl, rfl⟩
      · intro _
        have : hasT st.remote title = true := hasT_of_truthy_find _ _ hf
        simp [this]
    · exact hf
  | false =>
    rw [create_page_ok env k st title body pid hf hd (hc title)]
    constructor
    · intro wf
      have hno : hasT st.remote title = false := by
        rw [← truthy_find st.remote title wf]; exact hf
      constructor
      · exact WFRemote_append st.remote _ _ wf (mintedId_ne_empty _)
      · intro t
        simp only [hasT, List.any_append, List.any_cons, List.any_nil,
          Bool.or_false, Bool.or_eq_true, beq_iff_eq, List.mem_singleton]
        constructor
        · rintro (h | h)
          · exact Or.inl h
          · exact Or.inr h.symm
        · rintro (h | h)
          · exact Or.inl h
          · exact Or.inr h.symm
      · rfl
      · rfl
      · simp; omega
      · intro hp
        have := hp title (by simp)
        rw [hno] at this
        exact absurd this (by simp)
      · intro _
        simp [hno]
    · simp only [truthy]
      simp [mintedId_ne_empty st.remote.next]

/-- The file loop of a real all-success run attempts exactly its planned
titles. -/
theorem upload_files_fullrun (env : Env)
    (hd : env.dryRun = false) (hc : ∀ t, env.createOk t = true) :
    ∀ (fs : List Entry) (st : St) (p pfx : String),
      FullRun st (upload_files env st fs p pfx) (planFiles pfx fs) := by
  intro fs
  induction fs with
  | nil =>
    intro st p pfx
    simp only [upload_files, planFiles]
    exact FullRun.full_refl st
  | cons e rest ih =>
    intro st p pfx
    cases e with
    | file n c =>
      simp only [upload_files, planFiles]
      have h1 := (create_page_fullrun env .leaf st
        (pfx ++ " - " ++ pretty_title (pathStem n)) (md_to_storage c) p hd hc).1
      have h2 := ih (create_page env .leaf st
        (pfx ++ " - " ++ pretty_title (pathStem n)) (md_to_storage c) p).1 p pfx
      have := h1.full_trans h2
      simpa using this
    | dir name es =>
      simp only [upload_files, planFiles]
      exact ih st p pfx

/-- The walker of a real all-success run: full traversal, attempting
exactly the planned titles. -/
theorem walk_fullrun (env : Env)
    (hd : env.dryRun = false) (hc : ∀ t, env.createOk t = true) (n : Nat) :
    (∀ st d p pfx, entrySize d ≤ n →
      FullRun st (upload_subdir env st d p pfx) (planSub d pfx))
  ∧ (∀ st ds p pfx, entsSize ds ≤ n →
      FullRun st (upload_subdirs env st ds p pfx) (planDirs ds pfx))
  ∧ (∀ st es p pfx, entsSize es ≤ n →
      FullRun st (upload_directory env st es p pfx) (planDir es pfx)) := by
  induction n using Nat.strong_induction_on with
  | _ n ih =>
    have Hsub : ∀ st d p pfx, entrySize d ≤ n →
        FullRun st (upload_subdir env st d p pfx) (planSub d pfx) := by
      intro st d p pfx hle
      cases d with
      | file nm c =>
        rw [upload_subdir_file, planSub_file]
        exact FullRun.full_refl st
      | dir name es =>
        rw [upload_subdir_dir, planSub_dir]
        simp only
        have hsz : entsSize es ≤ n - 1 ∧ 1 ≤ n := by
          simp only [entrySize] at hle; omega
        have hlt : n - 1 < n := by omega
        obtain ⟨fr₁, htr⟩ := create_page_fullrun env .index st
          (pfx ++ " / " ++ name)
          ("<p>Index page for <strong>" ++ name ++ "</strong>.</p>") p hd hc
        rw [if_pos htr]
        have fr₂ := ((ih (n - 1) hlt).2.2)
          (create_page env .index st (pfx ++ " / " ++ name)
            ("<p>Index page for <strong>" ++ name ++ "</strong>.</p>") p).1 es
          ((create_page env .index st (pfx ++ " / " ++ name)
            ("<p>Index page for <strong>" ++ name ++ "</strong>.</p>") p).2.getD "")
          (pfx ++ " / " ++ name) hsz.1
        have := fr₁.full_trans fr₂
        simpa using this
    have Hsubs : ∀ ds st p pfx, entsSize ds ≤ n →
        FullRun st (upload_subdirs env st ds p pfx) (planDirs ds pfx) := by
      intro ds
      induction ds with
      | nil =>
        intro st p pfx _
        rw [upload_subdirs_nil, planDirs_nil]
        exact FullRun.full_refl st
      | cons d rest ihl =>
        intro st p pfx hle
        rw [upload_subdirs_cons, planDirs_cons]
        have h1 : entrySize d ≤ n := by
          simp only [entsSize_cons] at hle; omega
        have h2 : entsSize rest ≤ n := by
          have := entrySize_pos d
          simp only [entsSize_cons] at hle; omega
        exact (Hsub st d p pfx h1).full_trans (ihl _ p pfx h2)
    refine ⟨Hsub, fun st ds p pfx h => Hsubs ds st p pfx h, ?_⟩
    intro st es p pfx hle
    rw [upload_directory_eq, planDir_eq]
    have h0 := FullRun.full_ofLog st (st.log ++ [Ev.visit es])
    have h1 := upload_files_fullrun env hd hc
      ((sortEntries es).filter isMdFile) { st with log := st.log ++ [Ev.visit es] }
      p pfx
    have hds : entsSize ((sortEntries es).filter isIncludedDir) ≤ n := by
      have h1 := entsSize_filter_le isIncludedDir (sortEntries es)
      have h2 := entsSize_sortEntries es
      omega
    have h2 := Hsubs _ (upload_files env { st with log := st.log ++ [Ev.visit es] }
      ((sortEntries es).filter isMdFile) p pfx) p pfx hds
    have := (h0.full_trans h1).full_trans h2
    simpa using this

/-- One top-level subdirectory iteration of a real all-success run. -/
theorem main_top_dir_fullrun (env : Env) (st : St) (d : Entry)
    (root_id : String)
    (hd : env.dryRun = false) (hc : ∀ t, env.createOk t = true) :
    FullRun st (main_top_dir env st d root_id) (planTop d) := by
  cases d with
  | file n c => exact FullRun.full_refl st
  | dir name es =>
    rw [main_top_dir_dir]
    simp only [planTop]
    obtain ⟨fr₁, htr⟩ := create_page_fullrun env .index st name
      ("<p>Artefacts for <strong>" ++ name ++ "</strong>.</p>") root_id hd hc
    rw [if_pos htr]
    have fr₂ := (walk_fullrun env hd hc (entsSize es)).2.2
      (create_page env .index st name
        ("<p>Artefacts for <strong>" ++ name ++ "</strong>.</p>") root_id).1 es
      ((create_page env .index st name
        ("<p>Artefacts for <strong>" ++ name ++ "</strong>.</p>") root_id).2.getD "")
      name (le_refl _)
    have := fr₁.full_trans fr₂
    simpa using this

/-- The top-level subdirectory loop of a real all-success run. -/
theorem main_top_dirs_fullrun (env : Env) (ds : List Entry)
    (hd : env.dryRun = false) (hc : ∀ t, env.createOk t = true) :
    ∀ (st : St) (root_id : String),
      FullRun st (main_top_dirs env st ds root_id) (planTops ds) := by
  induction ds with
  | nil =>
    intro st root_id
    exact FullRun.full_refl st
  | cons d rest ih =>
    intro st root_id
    simp only [main_top_dirs, planTops]
    exact (main_top_dir_fullrun env st d root_id hd hc).full_trans (ih _ root_id)

/-- A real all-success upload run never aborts and attempts exactly the
planned titles. -/
theorem runUpload_fullrun (env : Env) (st : St) (rt pid : String)
    (entries : List Entry)
    (hd : env.dryRun = false) (hc : ∀ t, env.createOk t = true) :
    FullRun st (runUpload env st rt pid entries).1 (planUpload rt entries)
      ∧ (runUpload env st rt pid entries).2 = true := by
  obtain ⟨fr₁, htr⟩ := create_page_fullrun env .root st rt
    ("<p>Root page for <strong>" ++ rt ++ "</strong>.</p>") pid hd hc
  simp only [runUpload]
  rw [if_pos htr]
  refine ⟨?_, rfl⟩
  set st₁ := (create_page env .root st rt
    ("<p>Root page for <strong>" ++ rt ++ "</strong>.</p>") pid).1 with hst₁
  set rid := (create_page env .root st rt
    ("<p>Root page for <strong>" ++ rt ++ "</strong>.</p>") pid).2.getD "" with hrid
  have h0 := FullRun.full_ofLog st₁ (st₁.log ++ [Ev.visit entries])
  have h1 := upload_files_fullrun env hd hc
    (sortEntries (entries.filter isMdFile))
    { st₁ with log := st₁.log ++ [Ev.visit entries] } rid rt
  have h2 := main_top_dirs_fullrun env
    (sortEntries (entries.filter isIncludedDir)) hd hc
    (upload_files env { st₁ with log := st₁.log ++ [Ev.visit entries] }
      (sortEntries (entries.filter isMdFile)) rid rt) rid
  have := fr₁.full_trans ((h0.full_trans h1).full_trans h2)
  simpa [planUpload] using this

/-! ## Full-traversal runs in dry-run mode -/

/-- Result facts of a dry-run segment relative to the titles it attempts:
the remote is never touched, nothing fails, and each attempted title is
counted as created or skipped according to its presence in the (constant)
remote space. -/
structure DryRes (st st' : St) (pl : List String) : Prop where
  remote : st'.remote = st.remote
  failed : st'.stats.failed = st.stats.failed
  deleted : st'.stats.deleted = st.stats.deleted
  created : st'.stats.created
      = st.stats.created + (pl.filter (fun t => !(hasT st.remote t))).length
  skipped : st'.stats.skipped
      = st.stats.skipped + (pl.filter (fun t => hasT st.remote t)).length

/-- A dry-run segment, guarded by well-formedness of the incoming remote. -/
def DryRun (st st' : St) (pl : List String) : Prop :=
  WFRemote st.remote → DryRes st st' pl

theorem DryRun.dry_refl (st : St) : DryRun st st [] := by
  intro _
  exact ⟨rfl, rfl, rfl, by simp, by simp⟩

theorem DryRun.dry_trans {st st₁ st₂ : St} {pl₁ pl₂ : List String}
    (a : DryRun st st₁ pl₁) (b : DryRun st₁ st₂ pl₂) :
    DryRun st st₂ (pl₁ ++ pl₂) := by
  intro wf
  have ra := a wf
  have rb := b (by rw [ra.remote]; exact wf)
  refine ⟨by rw [rb.remote, ra.remote], by rw [rb.failed, ra.failed],
    by rw [rb.deleted, ra.deleted], ?_, ?_⟩
  · rw [rb.created, ra.created, ra.remote, List.filter_append,
      List.length_append]
    omega
  · rw [rb.skipped, ra.skipped, ra.remote, List.filter_append,
      List.length_append]
    omega

theorem DryRun.dry_ofLog (st : St) (l : List Ev) :
    DryRun st { st with log := l } [] := by
  intro _
  exact ⟨rfl, rfl, rfl, by simp, by simp⟩

theorem create_page_dryrun (env : Env) (k : PageKind) (st : St)
    (title body pid : String) (hdry : env.dryRun = true) :
    DryRun st (create_page env k st title body pid).1 [title] ∧
      truthy (create_page env k st title body pid).2 = true := by
  cases hf : truthy (find_page st.remote title) with
  | true =>
    rw [create_page_found env k st title body pid hf]
    have hyes : hasT st.remote title = true := hasT_of_truthy_find _ _ hf
    refine ⟨?_, hf⟩
    intro wf
    exact ⟨rfl, rfl, rfl, by simp [hyes], by simp [hyes]⟩
  | false =>
    rw [create_page_dry env k st title body pid hf hdry]
    refine ⟨?_, by simp [truthy]⟩
    intro wf
    have hno : hasT st.remote title = false := by
      rw [← truthy_find st.remote title wf]; exact hf
    exact ⟨rfl, rfl, rfl, by simp [hno], by simp [hno]⟩

theorem upload_files_dryrun (env : Env) (hdry : env.dryRun = true) :
    ∀ (fs : List Entry) (st : St) (p pfx : String),
      DryRun st (upload_files env st fs p pfx) (planFiles pfx fs) := by
  intro fs
  induction fs with
  | nil =>
    intro st p pfx
    simp only [upload_files, planFiles]
    exact DryRun.dry_refl st
  | cons e rest ih =>
    intro st p pfx
    cases e with
    | file n c =>
      simp only [upload_files, planFiles]
      have h1 := (create_page_dryrun env .leaf st
        (pfx ++ " - " ++ pretty_title (pathStem n)) (md_to_storage c) p hdry).1
      have h2 := ih (create_page env .leaf st
        (pfx ++ " - " ++ pretty_title (pathStem n)) (md_to_storage c) p).1 p pfx
      have := h1.dry_trans h2
      simpa using this
    | dir name es =>
      simp only [upload_files, planFiles]
      exact ih st p pfx

/-- The walker in dry-run mode: full traversal via synthetic ids,
attempting exactly the planned titles. -/
theorem walk_dryrun (env : Env) (hdry : env.dryRun = true) (n : Nat) :
    (∀ st d p pfx, entrySize d ≤ n →
      DryRun st (upload_subdir env st d p pfx) (planSub d pfx))
  ∧ (∀ st ds p pfx, entsSize ds ≤ n →
      DryRun st (upload_subdirs env st ds p pfx) (planDirs ds pfx))
  ∧ (∀ st es p pfx, entsSize es ≤ n →
      DryRun st (upload_directory env st es p pfx) (planDir es pfx)) := by
  induction n using Nat.strong_induction_on with
  | _ n ih =>
    have Hsub : ∀ st d p pfx, entrySize d ≤ n →
        DryRun st (upload_subdir env st d p pfx) (planSub d pfx) := by
      intro st d p pfx hle
      cases d with
      | file nm c =>
        rw [upload_subdir_file, planSub_file]
        exact DryRun.dry_refl st
      | dir name es =>
        rw [upload_subdir_dir, planSub_dir]
        simp only
        have hsz : entsSize es ≤ n - 1 ∧ 1 ≤ n := by
          simp only [entrySize] at hle; omega
        have hlt : n - 1 < n := by omega
        obtain ⟨fr₁, htr⟩ := create_page_dryrun env .index st
          (pfx ++ " / " ++ name)
          ("<p>Index page for <strong>" ++ name ++ "</strong>.</p>") p hdry
        rw [if_pos htr]
        have fr₂ := ((ih (n - 1) hlt).2.2)
          (create_page env .index st (pfx ++ " / " ++ name)
            ("<p>Index page for <strong>" ++ name ++ "</strong>.</p>") p).1 es
          ((create_page env .index st (pfx ++ " / " ++ name)
            ("<p>Index page for <strong>" ++ name ++ "</strong>.</p>") p).2.getD "")
          (pfx ++ " / " ++ name) hsz.1
        have := fr₁.dry_trans fr₂
        simpa using this
    have Hsubs : ∀ ds st p pfx, entsSize ds ≤ n →
        DryRun st (upload_subdirs env st ds p pfx) (planDirs ds pfx) := by
      intro ds
      induction ds with
      | nil =>
        intro st p pfx _
        rw [upload_subdirs_nil, planDirs_nil]
        exact DryRun.dry_refl st
      | cons d rest ihl =>
        intro st p pfx hle
        rw [upload_subdirs_cons, planDirs_cons]
        have h1 : entrySize d ≤ n := by
          simp only [entsSize_cons] at hle; omega
        have h2 : entsSize rest ≤ n := by
          have := entrySize_pos d
          simp only [entsSize_cons] at hle; omega
        exact (Hsub st d p pfx h1).dry_trans (ihl _ p pfx h2)
    refine ⟨Hsub, fun st ds p pfx h => Hsubs ds st p pfx h, ?_⟩
    intro st es p pfx hle
    rw [upload_directory_eq, planDir_eq]
    have h0 := DryRun.dry_ofLog st (st.log ++ [Ev.visit es])
    have h1 := upload_files_dryrun env hdry
      ((sortEntries es).filter isMdFile) { st with log := st.log ++ [Ev.visit es] }
      p pfx
    have hds : entsSize ((sortEntries es).filter isIncludedDir) ≤ n := by
      have h1 := entsSize_filter_le isIncludedDir (sortEntries es)
      have h2 := entsSize_sortEntries es
      omega
    have h2 := Hsubs _ (upload_files env { st with log := st.log ++ [Ev.visit es] }
      ((sortEntries es).filter isMdFile) p pfx) p pfx hds
    have := (h0.dry_trans h1).dry_trans h2
    simpa using this

theorem main_top_dir_dryrun (env : Env) (st : St) (d : Entry)
    (root_id : String) (hdry : env.dryRun = true) :
    DryRun st (main_top_dir env st d root_id) (planTop d) := by
  cases d with
  | file n c => exact DryRun.dry_refl st
  | dir name es =>
    rw [main_top_dir_dir]
    simp only [planTop]
    obtain ⟨fr₁, htr⟩ := create_page_dryrun env .index st name
      ("<p>Artefacts for <strong>" ++ name ++ "</strong>.</p>") root_id hdry
    rw [if_pos htr]
    have fr₂ := (walk_dryrun env hdry (entsSize es)).2.2
      (create_page env .index st name
        ("<p>Artefacts for <strong>" ++ name ++ "</strong>.</p>") root_id).1 es
      ((create_page env .index st name
        ("<p>Artefacts for <strong>" ++ name ++ "</strong>.</p>") root_id).2.getD "")
      name (le_refl _)
    have := fr₁.dry_trans fr₂
    simpa using this

theorem main_top_dirs_dryrun (env : Env) (ds : List Entry)
    (hdry : env.dryRun = true) :
    ∀ (st : St) (root_id : String),
      DryRun st (main_top_dirs env st ds root_id) (planTops ds) := by
  induction ds with
  | nil =>
    intro st root_id
    exact DryRun.dry_refl st
  | cons d rest ih =>
    intro st root_id
    simp only [main_top_dirs, planTops]
    exact (main_top_dir_dryrun env st d root_id hdry).dry_trans (ih _ root_id)

/-- A dry upload run never aborts, never touches the remote, and counts
every planned title as created or skipped by presence in the initial
remote. -/
theorem runUpload_dryrun (env : Env) (st : St) (rt pid : String)
    (entries : List Entry) (hdry : env.dryRun = true) :
    DryRun st (runUpload env st rt pid entries).1 (planUpload rt entries)
      ∧ (runUpload env st rt pid entries).2 = true := by
  obtain ⟨fr₁, htr⟩ := create_page_dryrun env .root st rt
    ("<p>Root page for <strong>" ++ rt ++ "</strong>.</p>") pid hdry
  simp only [runUpload]
  rw [if_pos htr]
  refine ⟨?_, rfl⟩
  set st₁ := (create_page env .root st rt
    ("<p>Root page for <strong>" ++ rt ++ "</strong>.</p>") pid).1 with hst₁
  set rid := (create_page env .root st rt
    ("<p>Root page for <strong>" ++ rt ++ "</strong>.</p>") pid).2.getD "" with hrid
  have h0 := DryRun.dry_ofLog st₁ (st₁.log ++ [Ev.visit entries])
  have h1 := upload_files_dryrun env hdry
    (sortEntries (entries.filter isMdFile))
    { st₁ with log := st₁.log ++ [Ev.visit entries] } rid rt
  have h2 := main_top_dirs_dryrun env
    (sortEntries (entries.filter isIncludedDir)) hdry
    (upload_files env { st₁ with log := st₁.log ++ [Ev.visit entries] }
      (sortEntries (entries.filter isMdFile)) rid rt) rid
  have := fr₁.dry_trans ((h0.dry_trans h1).dry_trans h2)
  simpa [planUpload] using this

/-- When a title is present, `find_page` returns the id of an existing
page bearing exactly that title. -/
theorem find_page_spec (r : Remote) (title : String)
    (h : hasT r title = true) :
    ∃ pg ∈ r.pages, pg.title = title ∧ find_page r title = some pg.id := by
  obtain ⟨ps, n⟩ := r
  simp only [hasT] at h
  simp only [find_page]
  induction ps with
  | nil => simp at h
  | cons p ps ih =>
    by_cases hp : p.title == title
    · refine ⟨p, by simp, by simpa using hp, ?_⟩
      simp [List.find?_cons, hp]
    · simp only [List.any_cons, hp, Bool.false_or] at h
      obtain ⟨pg, hmem, htitle, hfind⟩ := ih h
      refine ⟨pg, by simp [hmem], htitle, ?_⟩
      simpa [List.find?_cons, hp] using hfind

/-! # Claims -/

/-- C2: for every directory tree given to upload mode, the number of
leaf-page create attempts (calls to `create_page` for a file's content)
equals the number of `.md` files across all visited directories — a
directory being visited (recorded by its `visit` event) only when its
index page's create returned an id — so files in pruned subtrees are
never attempted. -/
theorem claim_C2 (env : Env) (r0 : Remote) (rt pid : String)
    (entries : List Entry) :
    leafCount (runUpload env (initSt r0) rt pid entries).1.log
      = visitSum (runUpload env (initSt r0) rt pid entries).1.log := by
  obtain ⟨Δ, seg, hb⟩ := runUpload_dirseg env (initSt r0) rt pid entries
  rw [seg.log]
  simpa [initSt, leafCount_append, visitSum_append, leafCount, visitSum]
    using hb

/-- C10: every `create_page` call, real or dry, increments exactly one of
created/skipped/failed by one and leaves the other counters unchanged;
consequently at the end of any upload run created + skipped + failed
equals the number of create attempts and the deleted counter is still
zero. -/
theorem claim_C10 :
    (∀ (env : Env) (k : PageKind) (st : St) (title body pid : String),
      (create_page env k st title body pid).1.stats
          = { st.stats with created := st.stats.created + 1 }
        ∨ (create_page env k st title body pid).1.stats
          = { st.stats with skipped := st.stats.skipped + 1 }
        ∨ (create_page env k st title body pid).1.stats
          = { st.stats with failed := st.stats.failed + 1 })
    ∧ (∀ (env : Env) (r0 : Remote) (rt pid : String) (entries : List Entry),
        (runUpload env (initSt r0) rt pid entries).1.stats.created
          + (runUpload env (initSt r0) rt pid entries).1.stats.skipped
          + (runUpload env (initSt r0) rt pid entries).1.stats.failed
          = attemptCount (runUpload env (initSt r0) rt pid entries).1.log
        ∧ (runUpload env (initSt r0) rt pid entries).1.stats.deleted = 0) := by
  constructor
  · intro env k st title body pid
    cases hf : truthy (find_page st.remote title) with
    | true =>
      rw [create_page_found env k st title body pid hf]
      right; left; rfl
    | false =>
      cases hd : env.dryRun with
      | true =>
        rw [create_page_dry env k st title body pid hf hd]
        left; rfl
      | false =>
        cases hc : env.createOk title with
        | true =>
          rw [create_page_ok env k st title body pid hf hd hc]
          left; rfl
        | false =>
          rw [create_page_fail env k st title body pid hf hd hc]
          right; right; rfl
  · intro env r0 rt pid entries
    obtain ⟨Δ, seg, _⟩ := runUpload_dirseg env (initSt r0) rt pid entries
    constructor
    · rw [seg.log, seg.sum]
      simp [initSt, attemptCount_append, attemptCount]
    · rw [seg.delEq]
      rfl

/-- C4: when a subdirectory's index-page create request fails, the walker
does not recurse into that subdirectory — its whole processing is exactly
the failed index attempt (one attempt event and one POST event, no visit
of the subdirectory, no page under it attempted), the failed counter is
incremented by one, the remote is unchanged — and the loop continues with
the remaining siblings from that state. -/
theorem claim_C4 (env : Env) (st : St) (name : String) (es rest : List Entry)
    (p pfx : String)
    (hf : truthy (find_page st.remote (pfx ++ " / " ++ name)) = false)
    (hd : env.dryRun = false)
    (hc : env.createOk (pfx ++ " / " ++ name) = false) :
    upload_subdir env st (.dir name es) p pfx
      = { st with
            stats := { st.stats with failed := st.stats.failed + 1 },
            log := st.log ++ [Ev.attempt .index (pfx ++ " / " ++ name),
                              Ev.post (pfx ++ " / " ++ name)] }
    ∧ upload_subdirs env st (.dir name es :: rest) p pfx
      = upload_subdirs env
          { st with
              stats := { st.stats with failed := st.stats.failed + 1 },
              log := st.log ++ [Ev.attempt .index (pfx ++ " / " ++ name),
                                Ev.post (pfx ++ " / " ++ name)] }
          rest p pfx := by
  have hstep : upload_subdir env st (.dir name es) p pfx
      = { st with
            stats := { st.stats with failed := st.stats.failed + 1 },
            log := st.log ++ [Ev.attempt .index (pfx ++ " / " ++ name),
                              Ev.post (pfx ++ " / " ++ name)] } := by
    rw [upload_subdir_dir]
    simp only
    rw [create_page_fail env .index st (pfx ++ " / " ++ name)
      ("<p>Index page for <strong>" ++ name ++ "</strong>.</p>") p hf hd hc]
    simp [truthy]
  exact ⟨hstep, by rw [upload_subdirs_cons, hstep]⟩

/-- C4 witness: a concrete subdirectory whose index create is rejected. -/
theorem claim_C4_witness :
    upload_subdir envReject (initSt emptyRemote)
        (.dir "guides" [.file "setup.md" "world"]) "P" "docs"
      = { initSt emptyRemote with
            stats := { (initSt emptyRemote).stats with failed := 1 },
            log := [Ev.attempt .index "docs / guides",
                    Ev.post "docs / guides"] } := by
  have h := claim_C4 envReject (initSt emptyRemote) "guides"
    [.file "setup.md" "world"] [] "P" "docs" (by decide) rfl rfl
  simpa using h.1

/-- C7: the text converter is total; any input whose rendering strips to
nothing (the empty document included) yields the fixed non-empty
placeholder paragraph, and a document holding a heading, a table and a
fenced code block converts to markup holding a structural marker for each. -/
theorem claim_C7 :
    (∀ s : String, strBlank (mdRender s) = true
      → md_to_storage s = "<p><em>Empty document</em></p>")
    ∧ md_to_storage "" = "<p><em>Empty document</em></p>"
    ∧ "<p><em>Empty document</em></p>" ≠ ""
    ∧ containsSub (md_to_storage docC7) "<h1>" = true
    ∧ containsSub (md_to_storage docC7) "<table>" = true
    ∧ containsSub (md_to_storage docC7) "<pre><code>" = true := by
  refine ⟨?_, by decide, by decide, by decide, by decide, by decide⟩
  intro s h
  simp [md_to_storage, h]

/-- C7 witness: the placeholder rule applied at a whitespace-only
document. -/
theorem claim_C7_witness :
    md_to_storage "   " = "<p><em>Empty document</em></p>" :=
  claim_C7.1 "   " (by decide)

/-- C8: deleting a title the lookup cannot find returns a non-success
result with the state untouched — no DELETE request is issued, no counter
(deleted included) changes — and a delete-mode run still exits with code
zero. -/
theorem claim_C8 (env : Env) (st : St) (title : String)
    (h : truthy (find_page st.remote title) = false) :
    delete_page env st title = (st, false)
    ∧ (∀ (args : Args) (r0 : Remote),
        env.email ≠ "" → env.token ≠ "" → truthy args.delete = true →
        exitCode (runMain env args r0) = 0) := by
  constructor
  · simp [delete_page, h]
  · intro args r0 he ht hdel
    simp [runMain, he, ht, hdel, exitCode]

/-- C8 witness: deleting a missing title on an empty space. -/
theorem claim_C8_witness :
    delete_page envSample (initSt emptyRemote) "Artefacts"
      = (initSt emptyRemote, false)
    ∧ exitCode (runMain envSample
        ⟨"P", none, none, some "Artefacts", false⟩ emptyRemote) = 0 := by
  have h := claim_C8 envSample (initSt emptyRemote) "Artefacts" (by decide)
  exact ⟨h.1, h.2 ⟨"P", none, none, some "Artefacts", false⟩ emptyRemote
    (by decide) (by decide) (by decide)⟩

/-- C9: when the issued DELETE request returns a non-success status,
`delete_page` returns failure having appended only the DELETE event —
every counter, the failed counter included, is unchanged, so the final
statistics tally is the same as if the delete had never been attempted. -/
theorem claim_C9 (env : Env) (st : St) (title pid : String)
    (hfind : find_page st.remote title = some pid) (hne : pid ≠ "")
    (hd : env.dryRun = false) (hdel : env.deleteOk pid = false) :
    delete_page env st title
      = ({ st with log := st.log ++ [Ev.del pid] }, false)
    ∧ (delete_page env st title).1.stats = st.stats
    ∧ statsReport (delete_page env st title).1.stats = statsReport st.stats := by
  have h : delete_page env st title
      = ({ st with log := st.log ++ [Ev.del pid] }, false) := by
    simp [delete_page, hfind, truthy, hne, hd, hdel]
  exact ⟨h, by rw [h], by rw [h]⟩

/-- C9 witness: a rejected DELETE on a space holding the page. -/
theorem claim_C9_witness :
    delete_page envReject (initSt ⟨[⟨"id7", "Artefacts", "P", "b"⟩], 8⟩)
        "Artefacts"
      = ({ initSt ⟨[⟨"id7", "Artefacts", "P", "b"⟩], 8⟩ with
            log := [Ev.del "id7"] }, false) := by
  have h := claim_C9 envReject (initSt ⟨[⟨"id7", "Artefacts", "P", "b"⟩], 8⟩)
    "Artefacts" "id7" (by decide) (by decide) rfl rfl
  simpa using h.1

/-- C5 (amended): the exit code is non-zero exactly when a required
credential is missing, or — in upload mode — the source-directory flag is
missing or empty, the path is not a directory, or the root page cannot be
created; per-page create or delete failures never make it non-zero. -/
theorem claim_C5_amended (env : Env) (args : Args) (r0 : Remote) :
    exitCode (runMain env args r0) ≠ 0 ↔
      ((env.email = "" ∨ env.token = "")
        ∨ (truthy args.delete = false ∧
            match args.dirArg with
            | none => True
            | some da =>
              da.name = ""
              ∨ match da.listing with
                | none => True
                | some entries =>
                  (runUpload env (initSt r0)
                    (if truthy args.rootTitle then args.rootTitle.getD ""
                     else pyTitle da.name)
                    args.parentId entries).2 = false)) := by
  by_cases hauth : env.email = "" ∨ env.token = ""
  · simp [runMain, hauth, exitCode]
  · cases hdel : truthy args.delete with
    | true =>
      simp [runMain, hauth, hdel, exitCode]
    | false =>
      cases hdir : args.dirArg with
      | none =>
        simp [runMain, hauth, hdel, hdir, exitCode]
      | some da =>
        by_cases hname : da.name = ""
        · simp [runMain, hauth, hdel, hdir, hname, exitCode]
        · cases hlist : da.listing with
          | none =>
            simp [runMain, hauth, hdel, hdir, hname, hlist, exitCode]
          | some entries =>
            cases hrun : (runUpload env (initSt r0)
                (if truthy args.rootTitle then args.rootTitle.getD ""
                 else pyTitle da.name) args.parentId entries).2 with
            | true =>
              simp [runMain, hauth, hdel, hdir, hname, hlist, hrun, exitCode]
            | false =>
              simp [runMain, hauth, hdel, hdir, hname, hlist, hrun, exitCode]

/-- C5 witness: the amended equivalence at a concrete run whose root
page creation is rejected by the service (exit is non-zero). -/
theorem claim_C5_witness :
    exitCode (runMain envReject argsDocs emptyRemote) ≠ 0 := by
  exact (claim_C5_amended envReject argsDocs emptyRemote).mpr
    (Or.inr ⟨by decide, Or.inr (by decide)⟩)

/-- C5 counterexample: with both secrets present, a run whose `--dir`
names something that is not a directory exits with code 1 although the
root page was never attempted (the outcome is not a root-page failure), so
the exit code is non-zero in a case the claim says must be zero. -/
theorem claim_C5_counterexample :
    exitCode (runMain envSample argsNotDir emptyRemote) = 1
    ∧ envSample.email ≠ "" ∧ envSample.token ≠ ""
    ∧ isRootError (runMain envSample argsNotDir emptyRemote) = false := by
  exact ⟨rfl, by decide, by decide, rfl⟩

/-- C6: leaf titles are `{current prefix} - {titleized stem}`, nested index
titles are `{prefix} / {raw directory name}`, and the spec's `docs/`
scenario (files `intro.md` and `guides/setup.md`) produces exactly the
pages "Docs" under the given parent, "Docs - Intro" under it, "guides"
under "Docs", and "guides - Setup" under "guides", with exit code 0. -/
theorem claim_C6 :
    (∀ (env : Env) (st : St) (p pfx n c : String) (rest : List Entry),
      ∃ tail, (upload_files env st (.file n c :: rest) p pfx).log
        = st.log ++ Ev.attempt .leaf
            (pfx ++ " - " ++ pretty_title (pathStem n)) :: tail)
    ∧ (∀ (env : Env) (st : St) (name : String) (es rest : List Entry)
        (p pfx : String),
      ∃ tail, (upload_subdirs env st (.dir name es :: rest) p pfx).log
        = st.log ++ Ev.attempt .index (pfx ++ " / " ++ name) :: tail)
    ∧ outcomePages (runMain envSample argsDocs emptyRemote)
        = [("id0", "Docs", "P"), ("id1", "Docs - Intro", "id0"),
           ("id2", "guides", "id0"), ("id3", "guides - Setup", "id2")]
    ∧ exitCode (runMain envSample argsDocs emptyRemote) = 0 := by
  refine ⟨?_, ?_, by decide, rfl⟩
  · intro env st p pfx n c rest
    obtain ⟨t₁, h₁⟩ := create_page_log env .leaf st
      (pfx ++ " - " ++ pretty_title (pathStem n)) (md_to_storage c) p
    obtain ⟨Δ₂, seg₂, _⟩ := upload_files_seg env
      (create_page env .leaf st (pfx ++ " - " ++ pretty_title (pathStem n))
        (md_to_storage c) p).1 rest p pfx
    refine ⟨t₁ ++ Δ₂, ?_⟩
    simp only [upload_files]
    rw [seg₂.log, h₁]
    simp [List.append_assoc]
  · intro env st name es rest p pfx
    obtain ⟨t₁, h₁⟩ := create_page_log env .index st (pfx ++ " / " ++ name)
      ("<p>Index page for <strong>" ++ name ++ "</strong>.</p>") p
    rw [upload_subdirs_cons]
    have hsubdir : ∃ tail, (upload_subdir env st (.dir name es) p pfx).log
        = st.log ++ Ev.attempt .index (pfx ++ " / " ++ name) :: tail := by
      rw [upload_subdir_dir]
      simp only
      split
      · obtain ⟨Δ₂, seg₂, _⟩ := upload_directory_dirseg env
          (create_page env .index st (pfx ++ " / " ++ name)
            ("<p>Index page for <strong>" ++ name ++ "</strong>.</p>") p).1 es
          ((create_page env .index st (pfx ++ " / " ++ name)
            ("<p>Index page for <strong>" ++ name ++ "</strong>.</p>") p).2.getD "")
          (pfx ++ " / " ++ name)
        refine ⟨t₁ ++ Δ₂, ?_⟩
        rw [seg₂.log, h₁]
        simp [List.append_assoc]
      · exact ⟨t₁, h₁⟩
    obtain ⟨t₂, h₂⟩ := hsubdir
    obtain ⟨Δ₃, seg₃, _⟩ := upload_subdirs_dirseg env
      (upload_subdir env st (.dir name es) p pfx) rest p pfx
    refine ⟨t₂ ++ Δ₃, ?_⟩
    rw [seg₃.log, h₂]
    simp [List.append_assoc]

/-- C1: upload is idempotent by title.  A `create_page` call whose title is
already present in the (well-formed) remote space issues no create request
(only the attempt is logged), increments "skipped" by one and returns the
existing page's id; consequently, against a service accepting every
request, re-running upload mode over the same tree and the remote state the
first run produced aborts nothing, creates zero new pages, fails nothing,
leaves the remote unchanged, and skips created₁ + skipped₁ pages — in
particular, when the first run skipped nothing, the second run's skipped
count equals the first run's created count. -/
theorem claim_C1 :
    (∀ (env : Env) (k : PageKind) (st : St) (title body pid : String),
      WFRemote st.remote → hasT st.remote title = true →
      create_page env k st title body pid
        = ({ st with stats := { st.stats with skipped := st.stats.skipped + 1 },
                     log := st.log ++ [Ev.attempt k title] },
           find_page st.remote title)
      ∧ ∃ pg ∈ st.remote.pages, pg.title = title
          ∧ find_page st.remote title = some pg.id)
    ∧ (∀ (env : Env) (r0 : Remote) (rt pid : String) (entries : List Entry),
        env.dryRun = false → (∀ t, env.createOk t = true) → WFRemote r0 →
        (runUpload env (initSt r0) rt pid entries).2 = true
        ∧ (runUpload env
            (initSt (runUpload env (initSt r0) rt pid entries).1.remote)
            rt pid entries).2 = true
        ∧ (runUpload env
            (initSt (runUpload env (initSt r0) rt pid entries).1.remote)
            rt pid entries).1.stats.created = 0
        ∧ (runUpload env
            (initSt (runUpload env (initSt r0) rt pid entries).1.remote)
            rt pid entries).1.stats.failed = 0
        ∧ (runUpload env
            (initSt (runUpload env (initSt r0) rt pid entries).1.remote)
            rt pid entries).1.remote
          = (runUpload env (initSt r0) rt pid entries).1.remote
        ∧ (runUpload env
            (initSt (runUpload env (initSt r0) rt pid entries).1.remote)
            rt pid entries).1.stats.skipped
          = (runUpload env (initSt r0) rt pid entries).1.stats.created
            + (runUpload env (initSt r0) rt pid entries).1.stats.skipped
        ∧ ((runUpload env (initSt r0) rt pid entries).1.stats.skipped = 0 →
            (runUpload env
              (initSt (runUpload env (initSt r0) rt pid entries).1.remote)
              rt pid entries).1.stats.skipped
            = (runUpload env (initSt r0) rt pid entries).1.stats.created)) := by
  constructor
  · intro env k st title body pid wf hT
    have hf : truthy (find_page st.remote title) = true := by
      rw [truthy_find st.remote title wf]; exact hT
    exact ⟨create_page_found env k st title body pid hf,
      find_page_spec st.remote title hT⟩
  · intro env r0 rt pid entries hd hc wf
    have h1 := runUpload_fullrun env (initSt r0) rt pid entries hd hc
    have ra := h1.1 wf
    have h2 := runUpload_fullrun env
      (initSt (runUpload env (initSt r0) rt pid entries).1.remote)
      rt pid entries hd hc
    have rb := h2.1 ra.wf
    have hfound : ∀ t ∈ planUpload rt entries,
        hasT (runUpload env (initSt r0) rt pid entries).1.remote t = true :=
      fun t ht => (ra.iff t).mpr (Or.inr ht)
    obtain ⟨hrem, hcre⟩ := rb.allFound hfound
    have hsum2 := rb.sum
    have hsum1 := ra.sum
    have hfail2 := rb.failed
    refine ⟨h1.2, h2.2, ?_, ?_, hrem, ?_, ?_⟩
    · rw [hcre]; rfl
    · rw [hfail2]; rfl
    · have hz : (initSt (runUpload env (initSt r0) rt pid
          entries).1.remote).stats.created = 0 := rfl
      have hz2 : (initSt (runUpload env (initSt r0) rt pid
          entries).1.remote).stats.skipped = 0 := rfl
      have hz3 : (initSt r0).stats.created = 0 := rfl
      have hz4 : (initSt r0).stats.skipped = 0 := rfl
      rw [hz, hz2] at hsum2
      rw [hz3, hz4] at hsum1
      rw [hcre, hz] at hsum2
      omega
    · intro hskip
      have hz : (initSt (runUpload env (initSt r0) rt pid
          entries).1.remote).stats.created = 0 := rfl
      have hz2 : (initSt (runUpload env (initSt r0) rt pid
          entries).1.remote).stats.skipped = 0 := rfl
      have hz3 : (initSt r0).stats.created = 0 := rfl
      have hz4 : (initSt r0).stats.skipped = 0 := rfl
      rw [hz, hz2] at hsum2
      rw [hz3, hz4] at hsum1
      rw [hcre, hz] at hsum2
      omega

/-- C1 witness: both parts applied at a concrete space and the scenario
tree — a call on a present title skips and returns the existing id, and
the second run over the resulting state creates zero pages. -/
theorem claim_C1_witness :
    create_page envSample .leaf (initSt ⟨[⟨"id9", "Docs", "P", "b"⟩], 10⟩)
        "Docs" "body" "P"
      = ({ initSt ⟨[⟨"id9", "Docs", "P", "b"⟩], 10⟩ with
            stats := { (initSt ⟨[⟨"id9", "Docs", "P", "b"⟩], 10⟩).stats with
                        skipped := 1 },
            log := [Ev.attempt .leaf "Docs"] }, some "id9")
    ∧ (runUpload envSample
        (initSt (runUpload envSample (initSt emptyRemote)
          "Docs" "P" docsTree).1.remote)
        "Docs" "P" docsTree).1.stats.created = 0
    ∧ (runUpload envSample
        (initSt (runUpload envSample (initSt emptyRemote)
          "Docs" "P" docsTree).1.remote)
        "Docs" "P" docsTree).1.stats.skipped
      = (runUpload envSample (initSt emptyRemote)
          "Docs" "P" docsTree).1.stats.created := by
  have hA := claim_C1.1 envSample .leaf
    (initSt ⟨[⟨"id9", "Docs", "P", "b"⟩], 10⟩) "Docs" "body" "P"
    (by intro p hp; simp [initSt] at hp; subst hp; decide) (by decide)
  have hB := claim_C1.2 envSample emptyRemote "Docs" "P" docsTree rfl
    (fun _ => rfl) (by intro p hp; simp [emptyRemote] at hp)
  refine ⟨hA.1.trans rfl, hB.2.2.1, ?_⟩
  exact hB.2.2.2.2.2.2 (by decide)

/-- C3 counterexample: over the same source tree (two files whose stems
titleize to the same title) and the same empty remote state, with every
real create request succeeding, the dry run reports created = 3 while the
real run reports created = 2 — the dry run's created count does not equal
the real run's (the dry run still issues no mutating request). -/
theorem claim_C3_counterexample :
    (runUpload envSampleDry (initSt emptyRemote) "Docs" "P" cexTree).1.stats.created = 3
    ∧ (runUpload envSample (initSt emptyRemote) "Docs" "P" cexTree).1.stats.created = 2
    ∧ (runUpload envSampleDry (initSt emptyRemote) "Docs" "P" cexTree).1.stats.created
      ≠ (runUpload envSample (initSt emptyRemote) "Docs" "P" cexTree).1.stats.created
    ∧ mutCount (runUpload envSampleDry (initSt emptyRemote)
        "Docs" "P" cexTree).1.log = 0 := by
  refine ⟨by decide, by decide, by decide, by decide⟩

/-- C3 (amended): with the dry-run flag set no mutating request (create or
delete) is ever issued — `create_page` logs the attempt, increments
"created" and returns the synthetic id "dry-run-id", `delete_page` returns
success without contacting the service, an upload run issues zero POST and
DELETE requests and leaves the remote untouched while traversing fully —
and, provided every create request the real run would issue succeeds and
the attempted titles are pairwise distinct, the dry run's final "created"
count equals the real run's. -/
theorem claim_C3_amended :
    (∀ (env : Env) (k : PageKind) (st : St) (title body pid : String),
      env.dryRun = true → truthy (find_page st.remote title) = false →
      create_page env k st title body pid
        = ({ st with stats := { st.stats with created := st.stats.created + 1 },
                     log := st.log ++ [Ev.attempt k title] },
           some "dry-run-id"))
    ∧ (∀ (env : Env) (st : St) (title pid : String),
        env.dryRun = true → find_page st.remote title = some pid → pid ≠ "" →
        delete_page env st title = (st, true))
    ∧ (∀ (env : Env) (r0 : Remote) (rt pid : String) (entries : List Entry),
        env.dryRun = true →
        mutCount (runUpload env (initSt r0) rt pid entries).1.log = 0
        ∧ (runUpload env (initSt r0) rt pid entries).1.remote = r0
        ∧ (runUpload env (initSt r0) rt pid entries).2 = true)
    ∧ (∀ (envD envR : Env) (r0 : Remote) (rt pid : String)
        (entries : List Entry),
        envD.dryRun = true → envR.dryRun = false →
        (∀ t, envR.createOk t = true) → WFRemote r0 →
        (planUpload rt entries).Nodup →
        (runUpload envD (initSt r0) rt pid entries).1.stats.created
          = (runUpload envR (initSt r0) rt pid entries).1.stats.created) := by
  refine ⟨?_, ?_, ?_, ?_⟩
  · intro env k st title body pid hdry hf
    exact create_page_dry env k st title body pid hf hdry
  · intro env st title pid hdry hfind hne
    simp [delete_page, hfind, truthy, hne, hdry]
  · intro env r0 rt pid entries hdry
    obtain ⟨Δ, seg, _⟩ := runUpload_dirseg env (initSt r0) rt pid entries
    obtain ⟨hpost, hrem⟩ := seg.dry hdry
    refine ⟨?_, hrem, (runUpload_dryrun env (initSt r0) rt pid entries hdry).2⟩
    rw [seg.log]
    simp [mutCount, postCount, delCount, List.countP_append, initSt]
    constructor
    · simpa [postCount] using hpost
    · simpa [delCount] using seg.noDel
  · intro envD envR r0 rt pid entries hdryD hdR hcR wf hn
    have hD := ((runUpload_dryrun envD (initSt r0) rt pid entries hdryD).1 wf).created
    have hR := ((runUpload_fullrun envR (initSt r0) rt pid entries hdR hcR).1 wf).nodup hn
    rw [hD, hR]

/-- C3 witness: the amended equivalence at the scenario tree, whose four
planned titles are pairwise distinct. -/
theorem claim_C3_amended_witness :
    (runUpload envSampleDry (initSt emptyRemote) "Docs" "P" docsTree).1.stats.created
      = (runUpload envSample (initSt emptyRemote) "Docs" "P" docsTree).1.stats.created := by
  exact claim_C3_amended.2.2.2 envSampleDry envSample emptyRemote "Docs" "P"
    docsTree rfl rfl (fun _ => rfl)
    (by intro p hp; simp [emptyRemote] at hp) (by decide)

end ConfluenceUpload
